import Mathlib

/-!
Verification development for the summon mod-pack manager core
(scan / hash / resolve / guess pipeline).

Shallow embedding of the relevant Python sources into Lean:
* bytes are `List Nat` (each element a byte value),
* Python dicts are association lists preserving insertion order,
* fallible code (Python `assert`) is modelled with `Option`,
* I/O-backed plugin decisions are passed in as explicit oracle functions.

Source files embedded here:
* `summonmm/common.py` (`truncate_file_hash`, `FileOnDisk`, base64 json hashes)
* `summonmm/cache/root_git_data.py` (`_append_archive`, `archived_file_by_hash`,
  `_hash_archive`)
* `summonmm/cache/available_files.py` (`file_retrievers_by_hash` and helpers)
* `summonmm/helpers/file_retriever.py` (retriever data)
* `summonmm/plugins/arinstaller/_fomod/fomod_common.py` (`_add_to_out`)
* `summonmm/gitdata/stable_json.py` (stable JSON serialise / load)
* `summonmm/tasks/_tasks_parallel.py` (task graph scheduler state machine)
* `summonmm/cache/folder_cache.py` (scan + reconcile)
* `summonmm/commands/run_guess.py` (`run_guess` pipeline)
-/

namespace Summon

/-- Bytes as lists of byte values (`bytes` in the Python source). -/
abbrev Bytes := List Nat

/-- `common.truncate_file_hash`: truncates a 32-byte digest to its first 9
bytes (the caller must supply a 32-byte digest; the Python code asserts it). -/
def truncate_file_hash (h : Bytes) : Bytes := h.take 9

/-- `ZeroFileRetriever.ZEROHASH = hashlib.sha256(b"").digest()`:
the well-known SHA-256 digest of the empty byte string. -/
def ZEROHASH : Bytes :=
  [0xe3, 0xb0, 0xc4, 0x42, 0x98, 0xfc, 0x1c, 0x14,
   0x9a, 0xfb, 0xf4, 0xc8, 0x99, 0x6f, 0xb9, 0x24,
   0x27, 0xae, 0x41, 0xe4, 0x64, 0x9b, 0x93, 0x4c,
   0xa4, 0x95, 0x99, 0x1b, 0x78, 0x52, 0xb8, 0x55]

/-- `plugins.archives.FileInArchive`: an entry of an archive record; its
`file_hash` is already the 9-byte truncated digest. -/
structure FileInArchive where
  file_hash : Bytes
  file_size : Nat
  intra_path : String
deriving DecidableEq, Repr

/-- `plugins.archives.Archive`: an indexed archive.  (`by` in the source is a
Lean keyword, renamed to `attributed_by`.) -/
structure Archive where
  archive_hash : Bytes
  archive_size : Nat
  files : List FileInArchive
  attributed_by : String
deriving DecidableEq, Repr

/-- `common.FileOnDisk`.  `file_modified` (a Python float timestamp) is
modelled as an integer; the code only ever compares timestamps for
equality. -/
structure FileOnDisk where
  file_hash : Bytes
  file_modified : Int
  file_path : String
  file_size : Nat
deriving DecidableEq, Repr

/-- Python `s.startswith(p)` (character-based, like Python strings). -/
def pyStartsWith (s p : String) : Bool := p.data.isPrefixOf s.data

/-- Python `s[n:]` slicing (character-based). -/
def pyDrop (s : String) (n : Nat) : String := ⟨s.data.drop n⟩

/-- Python `len(s)` (character count). -/
def pyLen (s : String) : Nat := s.data.length

/-- Python `s.lower()` restricted to ASCII (paths in the source are
ASCII-normalised). -/
def pyLower (s : String) : String := ⟨s.data.map Char.toLower⟩

/-- Association-list lookup, modelling Python `dict.get` for
insertion-ordered dicts. -/
def alistGet {κ ν : Type} [DecidableEq κ] : List (κ × ν) → κ → Option ν
  | [], _ => none
  | (k', v) :: rest, k => if k' = k then some v else alistGet rest k

/-- `common.add_to_dict_of_lists`: appends `x` to the list at key `k`,
creating a singleton list if the key is absent. -/
def add_to_dict_of_lists {κ ν : Type} [DecidableEq κ]
    (m : List (κ × List ν)) (k : κ) (x : ν) : List (κ × List ν) :=
  match m with
  | [] => [(k, [x])]
  | (k', l) :: rest =>
    if k' = k then (k', l ++ [x]) :: rest else (k', l) :: add_to_dict_of_lists rest k x

/-! ## Archive index (`root_git_data.py`) -/

/-- In-memory index state of `RootGitData`: the part needed by hash lookup.
`_archived_files_by_hash` maps a 9-byte truncated digest to all
`(Archive, FileInArchive)` occurrences. -/
structure RootGitData where
  archived_files_by_hash : List (Bytes × List (Archive × FileInArchive))
deriving Repr

/-- `root_git_data._append_archive` restricted to the `archived_files_by_hash`
map: every file of the archive is appended at its (already truncated)
digest key. -/
def append_archive (m : List (Bytes × List (Archive × FileInArchive)))
    (ar : Archive) : List (Bytes × List (Archive × FileInArchive)) :=
  ar.files.foldl (fun acc fi => add_to_dict_of_lists acc fi.file_hash (ar, fi)) m

/-- `RootGitData.archived_file_by_hash`: truncates the 32-byte query digest
and looks it up in the by-truncated-hash map. -/
def archived_file_by_hash (rgd : RootGitData) (h : Bytes) :
    Option (List (Archive × FileInArchive)) :=
  alistGet rgd.archived_files_by_hash (truncate_file_hash h)

/-! ## Retrievers (`file_retriever.py`, `available_files.py`) -/

/-- `file_retriever.ArchiveFileRetrieverHelper` (data part).  The Python
constructor asserts `truncate_file_hash(file_hash) == file_in_archive.file_hash`
and `file_size == file_in_archive.file_size`; these are proved as properties
of the values the resolver builds. -/
structure ArchiveFileRetrieverHelper where
  file_hash : Bytes
  file_size : Nat
  archive_hash : Bytes
  archive_size : Nat
  file_in_archive : FileInArchive
deriving DecidableEq, Repr

/-- `file_retriever.ArchiveFileRetriever`: an outermost-to-innermost chain of
single-archive helpers. -/
structure ArchiveFileRetriever where
  file_hash : Bytes
  file_size : Nat
  single_archive_retrievers : List ArchiveFileRetrieverHelper
deriving DecidableEq, Repr

/-- `ArchiveFileRetriever.archive_hash()`: hash of the outermost archive of
the chain (`[]` never occurs for resolver-built values; `ZEROHASH` is a
placeholder default making the function total). -/
def ArchiveFileRetriever.archiveHash (r : ArchiveFileRetriever) : Bytes :=
  match r.single_archive_retrievers with
  | [] => ZEROHASH
  | x :: _ => x.archive_hash

/-- `file_retriever.GithubFileRetriever` (data part). -/
structure GithubFileRetriever where
  file_hash : Bytes
  file_size : Nat
  github_author : String
  github_project : String
  from_path : String
deriving DecidableEq, Repr

/-- `install_github.GithubFolder` (data part: author and project). -/
structure GithubFolder where
  author : String
  project : String
deriving DecidableEq, Repr

/-- `GithubFolder.folder`: local folder of the companion repository under the
root git dir. -/
def GithubFolder.folder (g : GithubFolder) (rootgitdir : String) : String :=
  rootgitdir ++ pyLower g.author ++ "\\" ++ pyLower g.project ++ "\\"

/-- `available_files.AvailableFiles` (the state its `file_retrievers_by_hash`
reads): root git dir, the companion-repo cache pre-indexed by digest
(`_github_cache_by_hash`), the list of companion repos, and the archive
index. -/
structure AvailableFiles where
  root_git_dir : String
  github_cache_by_hash : List (Bytes × List FileOnDisk)
  github_folders : List GithubFolder
  root_data : RootGitData

/-- Any retriever the resolver can return
(`ZeroFileRetriever` / `GithubFileRetriever` / `ArchiveFileRetriever`). -/
inductive FileRetriever where
  | zero : FileRetriever
  | github : GithubFileRetriever → FileRetriever
  | archive : ArchiveFileRetriever → FileRetriever
deriving DecidableEq, Repr

/-- Construction of one `ArchiveFileRetrieverHelper` from a query digest and
an `(Archive, FileInArchive)` occurrence, as in
`AvailableFiles._single_archive_retrievers`. -/
def mkSingleHelper (h : Bytes) (arfi : Archive × FileInArchive) :
    ArchiveFileRetrieverHelper :=
  ⟨h, arfi.2.file_size, arfi.1.archive_hash, arfi.1.archive_size, arfi.2⟩

/-- `AvailableFiles._single_archive_retrievers`: one helper per
`(Archive, FileInArchive)` occurrence of the truncated digest. -/
def single_archive_retrievers (rgd : RootGitData) (h : Bytes) :
    List ArchiveFileRetrieverHelper :=
  match archived_file_by_hash rgd h with
  | none => []
  | some found => found.map (mkSingleHelper h)

/-- `AvailableFiles._archived_file_retrievers_by_hash` together with
`_add_nested_archives`: for every single-archive occurrence emit the length-1
chain, then recursively resolve the containing archive's digest and append.
The Python recursion is well-founded on the acyclic real-world index; the
embedding adds explicit fuel. -/
def archived_file_retrievers_by_hash (rgd : RootGitData) :
    Nat → Bytes → List ArchiveFileRetriever
  | 0, _ => []
  | fuel + 1, h =>
    let singles := single_archive_retrievers rgd h
    if singles.isEmpty then []
    else
      singles.flatMap (fun r =>
        ⟨r.file_hash, r.file_size, [r]⟩ ::
          (archived_file_retrievers_by_hash rgd fuel r.archive_hash).map
            (fun r2 => ⟨r2.file_hash, r2.file_size,
                        r2.single_archive_retrievers ++ [r]⟩))

/-- `AvailableFiles._github_file_retrievers_by_hash`: for every cached
occurrence of the digest in the companion-repo cache, recover the repo by
prefix-matching the absolute path against the known repo folders (the Python
code asserts exactly one match; `none` models an assertion failure). -/
def github_file_retrievers_by_hash (af : AvailableFiles) (h : Bytes) :
    Option (List GithubFileRetriever) :=
  match alistGet af.github_cache_by_hash h with
  | none => some []
  | some ghlist =>
    ghlist.foldr (fun gh acc =>
      match acc with
      | none => none
      | some out =>
        match af.github_folders.filter
            (fun d => pyStartsWith gh.file_path (d.folder af.root_git_dir)) with
        | [d] =>
          some (⟨h, gh.file_size, d.author, d.project,
                 pyDrop gh.file_path (pyLen (d.folder af.root_git_dir))⟩ :: out)
        | _ => none) (some [])

/-- `AvailableFiles.file_retrievers_by_hash`: zero digest short-circuits;
then companion-repo occurrences; only otherwise archive chains. -/
def file_retrievers_by_hash (af : AvailableFiles) (fuel : Nat) (h : Bytes) :
    Option (List FileRetriever) :=
  if h = ZEROHASH then some [FileRetriever.zero]
  else
    match github_file_retrievers_by_hash af h with
    | none => none
    | some github =>
      if 0 < github.length then some (github.map FileRetriever.github)
      else some ((archived_file_retrievers_by_hash af.root_data fuel h).map
                   FileRetriever.archive)

/-- Projection of a helper to its chain link: the containing archive and the
contained file record (everything except the stored target digest). -/
def helperLink (r : ArchiveFileRetrieverHelper) : Bytes × Nat × FileInArchive :=
  (r.archive_hash, r.archive_size, r.file_in_archive)

/-- Projection of a full retriever to its chain-link structure and size. -/
def retrieverLinks (r : ArchiveFileRetriever) :
    List (Bytes × Nat × FileInArchive) × Nat :=
  (r.single_archive_retrievers.map helperLink, r.file_size)

/-! ## Archive hashing (`root_git_data._hash_archive`) -/

/-- A regular file in the extracted scratch tree: its path relative to the
scratch root, its basename (`os.path.split(fpath)[1]`), its content digest
and size, and — in case the file is itself an archive — the scratch tree its
extraction would produce.  Extraction I/O is thereby an explicit input. -/
inductive ScratchEntry where
  | file : String → String → Bytes → Nat → List ScratchEntry → ScratchEntry

/-- The `FileInArchive` record `_hash_archive` appends for a walked file:
truncated digest, size, lower-cased intra-archive path. -/
def scratchFIA : ScratchEntry → FileInArchive
  | .file rel _ fh fs _ => ⟨truncate_file_hash fh, fs, pyLower rel⟩

/-- `root_git_data._hash_archive`: records the archive with one
`FileInArchive` per walked file, and recurses into a walked file as a nested
archive exactly when `os.path.split(fpath)[1].lower()` — the lower-cased
BASENAME, as written in the source — is a member of the archive-plugin
extension list.  The Python recursion is structural on the scratch tree; the
embedding bounds the depth by explicit fuel (any fuel at least the tree depth
gives the source behaviour). -/
def hash_archive (exts : List String) (attributed_by : String) :
    Nat → Bytes → Nat → List ScratchEntry → List Archive
  | 0, arhash, arsize, entries =>
    [⟨arhash, arsize, entries.map scratchFIA, attributed_by⟩]
  | fuel + 1, arhash, arsize, entries =>
    ⟨arhash, arsize, entries.map scratchFIA, attributed_by⟩ ::
      entries.flatMap (fun e =>
        match e with
        | .file _ base fh fs contents =>
          if pyLower base ∈ exts then
            hash_archive exts attributed_by fuel fh fs contents
          else [])

/-! ## FOMOD install-list conflict resolution (`fomod_common.py`) -/

/-- Python dict assignment `d[k] = v`: updates in place (keeping the key's
insertion position), or appends a new key at the end. -/
def alistSet {κ ν : Type} [DecidableEq κ] : List (κ × ν) → κ → ν → List (κ × ν)
  | [], k, v => [(k, v)]
  | (k', v') :: rest, k, v =>
    if k' = k then (k', v) :: rest else (k', v') :: alistSet rest k v

/-- `FomodFilesAndFolders._add_to_out`: resolves a write of `af` at
destination `dst` with `priority` against the accumulated install map.
Higher priority replaces; equal priority replaces only when the file hash
differs; lower priority is ignored. -/
def fomod_add_to_out (out : List (String × (Int × FileInArchive)))
    (dst : String) (priority : Int) (af : FileInArchive) :
    List (String × (Int × FileInArchive)) :=
  match alistGet out dst with
  | some (oldpri, oldaf) =>
    if oldpri < priority then alistSet out dst (priority, af)
    else if priority = oldpri then
      (if af.file_hash ≠ oldaf.file_hash then alistSet out dst (priority, af)
       else out)
    else out
  | none => alistSet out dst (priority, af)

/-- The effect of one `_add_to_out` call on a single destination cell. -/
def cellStep (acc : Option (Int × FileInArchive)) (w : Int × FileInArchive) :
    Option (Int × FileInArchive) :=
  match acc with
  | none => some w
  | some (oldpri, oldaf) =>
    if oldpri < w.1 then some w
    else if w.1 = oldpri then
      (if w.2.file_hash ≠ oldaf.file_hash then some (w.1, w.2) else some (oldpri, oldaf))
    else some (oldpri, oldaf)

/-- Folding a sequence of same-destination writes through the cell rule. -/
def cellFold (wd : List (Int × FileInArchive)) : Option (Int × FileInArchive) :=
  wd.foldl cellStep none

/-- Processing a whole write sequence (destination, priority, entry) through
`_add_to_out`, starting from the empty install map. -/
def applyWrites (ws : List (String × Int × FileInArchive)) :
    List (String × (Int × FileInArchive)) :=
  ws.foldl (fun o w => fomod_add_to_out o w.1 w.2.1 w.2.2) []

/-! ## Base64 json hashes (`common.to_json_hash` / `from_json_hash`) -/

/-- The base64 alphabet used by `base64.b64encode`. -/
def b64chars : List Char :=
  "ABCDEFGHIJKLMNOPQRSTUVWXYZabcdefghijklmnopqrstuvwxyz0123456789+/".data

/-- Character of a 6-bit group. -/
def sextetChar (n : Nat) : Char := b64chars.getD n '?'

/-- Index of a character in the base64 alphabet (`none` for foreign chars). -/
def charSextet (c : Char) : Option Nat := b64chars.findIdx? (fun x => x = c)

/-- Standard base64: bytes to 6-bit groups (RFC 4648, as `b64encode` without
the padding characters). -/
def bytesToSextets : Bytes → List Nat
  | a :: b :: c :: rest =>
    [a / 4, (a % 4) * 16 + b / 16, (b % 16) * 4 + c / 64, c % 64]
      ++ bytesToSextets rest
  | [a, b] => [a / 4, (a % 4) * 16 + b / 16, (b % 16) * 4]
  | [a] => [a / 4, (a % 4) * 16]
  | [] => []

/-- Decoding 6-bit groups back to bytes, as `binascii.a2b_base64` does for
complete and trailing partial groups (a trailing single group char cannot be
decoded). -/
def sextetsToBytes : List Nat → Bytes
  | a :: b :: c :: d :: rest =>
    [a * 4 + b / 16, (b % 16) * 16 + c / 4, (c % 4) * 64 + d]
      ++ sextetsToBytes rest
  | [a, b, c] => [a * 4 + b / 16, (b % 16) * 16 + c / 4]
  | [a, b] => [a * 4 + b / 16]
  | [_] => []
  | [] => []

/-- Number of `=` padding characters `b64encode` appends for `n` bytes. -/
def b64_npad (n : Nat) : Nat := (3 - n % 3) % 3

/-- Python `s.rstrip("=")` on a character list. -/
def rstripEq (s : List Char) : List Char :=
  ((s.reverse).dropWhile (fun c => c = '=')).reverse

/-- `common.to_json_hash`: `base64.b64encode(h)` with the `=` padding
stripped. -/
def to_json_hash (h : Bytes) : String :=
  ⟨rstripEq ((bytesToSextets h).map sextetChar
      ++ List.replicate (b64_npad h.length) '=')⟩

/-- Model of CPython `base64.b64decode` (non-strict `binascii.a2b_base64`)
on an input of alphabet characters followed only by `=` characters, the only
shape `from_json_hash` produces.  Validated against CPython: with `d` data
characters and `p` trailing pads, `d % 4 == 1` always fails; `d % 4 == 0`
succeeds for any `p`; `d % 4 == 2` needs `p ≥ 2`; `d % 4 == 3` needs
`p ≥ 1`; surplus pads are ignored. -/
def b64decodeAux (dataPart padPart : List Char) : Option Bytes :=
  if padPart.all (fun c => c = '=') then
    match dataPart.mapM charSextet with
    | none => none
    | some sextets =>
      if sextets.length % 4 = 1 then none
      else if sextets.length % 4 = 0 then some (sextetsToBytes sextets)
      else if sextets.length % 4 = 2 then
        (if 2 ≤ padPart.length then some (sextetsToBytes sextets) else none)
      else (if 1 ≤ padPart.length then some (sextetsToBytes sextets) else none)
  else none

def b64decode (s : List Char) : Option Bytes :=
  b64decodeAux (s.takeWhile (fun c => c ≠ '='))
    (s.drop (s.takeWhile (fun c => c ≠ '=')).length)

/-- `common.from_json_hash`: re-pad with `(3 - len(s) % 3) % 3` characters
(the source's — incorrect in general — padding formula) and `b64decode`.
`none` models the `binascii.Error` escaping the function. -/
def from_json_hash (s : String) : Option Bytes :=
  b64decode (s.data ++ List.replicate ((3 - (pyLen s % 3)) % 3) '=')

/-! ## Stable JSON (`gitdata/stable_json.py`)

The embedding models the SUMMON_JSON mechanism over a universe of schemas
(`SJTy`), runtime values (`SJVal`) and JSON documents (`SJson`).  Python's
recursive class declarations correspond to finite unrollings of the schema
tree (every concrete value is typed by a finite unrolling).  Primitives are
`str`, `int`, `bool`, `bytes` (floats and the int-enum wrappers, which
serialise as ints, are outside the model); dict keys are `str` or `bytes`
(other key types do not survive `json.dump`).  Python `None` field values
are outside the typed fragment; the loader's behaviour on documents it could
not itself have produced is modelled conservatively as failure. -/

/-- Elementwise application of a fallible function, failing if any element
fails (Python: a comprehension over a function that may `assert`). -/
def optMap {α β : Type} (f : α → Option β) : List α → Option (List β)
  | [] => some []
  | a :: as =>
    match f a, optMap f as with
    | some b, some bs => some (b :: bs)
    | _, _ => none

/-- A canonical JSON document as written by `write_stable_json`
(insertion-ordered objects). -/
inductive SJson where
  | jstr : String → SJson
  | jint : Int → SJson
  | jbool : Bool → SJson
  | jlist : List SJson → SJson
  | jobj : List (String × SJson) → SJson

/-- A primitive value, used for declared field defaults (`sj[2]`). -/
inductive SJPrim where
  | pstr : String → SJPrim
  | pint : Int → SJPrim
  | pbool : Bool → SJPrim
  | pbytes : Bytes → SJPrim
deriving DecidableEq, Repr

/-- A SUMMON_JSON-compliant runtime value: primitives, lists, dicts, and
objects (field values in schema declaration order). -/
inductive SJVal where
  | vstr : String → SJVal
  | vint : Int → SJVal
  | vbool : Bool → SJVal
  | vbytes : Bytes → SJVal
  | vlist : List SJVal → SJVal
  | vdict : List (SJVal × SJVal) → SJVal
  | vobj : List SJVal → SJVal

/-- A SUMMON_JSON schema: primitives; lists with the `Unsorted` flag; dicts
(key type, value type); `twrap` is a single-field descriptor whose json
field name is `None` (serialised transparently); objects carry
`(jfield, type, declared default)` per field. -/
inductive SJTy where
  | tstr : SJTy
  | tint : SJTy
  | tbool : SJTy
  | tbytes : SJTy
  | tlist : Bool → SJTy → SJTy
  | tdict : SJTy → SJTy → SJTy
  | twrap : SJTy → SJTy
  | tobj : List (String × SJTy × Option SJPrim) → SJTy

/-- Primitive default as a runtime value. -/
def valOfPrim : SJPrim → SJVal
  | .pstr s => .vstr s
  | .pint n => .vint n
  | .pbool b => .vbool b
  | .pbytes b => .vbytes b

/-- Runtime value as a primitive, when it is one. -/
def primOfVal : SJVal → Option SJPrim
  | .vstr s => some (.pstr s)
  | .vint n => some (.pint n)
  | .vbool b => some (.pbool b)
  | .vbytes b => some (.pbytes b)
  | _ => none

/-- Python `==` restricted to primitive values (used by the loader's
duplicate-key assert). -/
def primEq : SJVal → SJVal → Bool
  | .vstr a, .vstr b => a = b
  | .vint a, .vint b => a = b
  | .vbool a, .vbool b => a = b
  | .vbytes a, .vbytes b => a = b
  | _, _ => false

/-- Python string `<=` (lexicographic by code point). -/
def charListLe : List Char → List Char → Bool
  | [], _ => true
  | _ :: _, [] => false
  | a :: as, b :: bs =>
    if a.toNat < b.toNat then true
    else if b.toNat < a.toNat then false
    else charListLe as bs

/-- Python string `<` (strict). -/
def charListLt : List Char → List Char → Bool
  | [], [] => false
  | [], _ :: _ => true
  | _ :: _, [] => false
  | a :: as, b :: bs =>
    if a.toNat < b.toNat then true
    else if b.toNat < a.toNat then false
    else charListLt as bs

def strLeB (a b : String) : Bool := charListLe a.data b.data

def strLtB (a b : String) : Bool := charListLt a.data b.data

/-- Stable insertion (before the first element not `le`-below the new one),
making `sortLeB` a stable sort — the behaviour of Python `sorted`. -/
def insertLeB {α : Type} (le : α → α → Bool) : α → List α → List α
  | x, [] => [x]
  | x, y :: ys => if le x y then x :: y :: ys else y :: insertLeB le x ys

/-- Stable sort (Python `sorted`). -/
def sortLeB {α : Type} (le : α → α → Bool) (l : List α) : List α :=
  l.foldr (insertLeB le) []

/-- Adjacent-pairs orderedness check. -/
def chainLeB {α : Type} (le : α → α → Bool) : List α → Bool
  | [] => true
  | [_] => true
  | a :: b :: rest => le a b && chainLeB le (b :: rest)

/-- Quadratic pairwise-distinct check. -/
def pairwiseNeB : List String → Bool
  | [] => true
  | x :: xs => xs.all (fun y => ¬(x = y)) && pairwiseNeB xs

/-- Python `"{:09d}".format(n)` (sign counts towards the width). -/
def intSortKey (n : Int) : String :=
  if n < 0 then
    "i-" ++ ⟨List.replicate (8 - (toString (-n)).data.length) '0'⟩ ++ toString (-n)
  else "i" ++ ⟨List.replicate (9 - (toString n).data.length) '0'⟩ ++ toString n

/-- The `"|"`-joined list sort key of `_to_sort_key`. -/
def joinBar : List String → String
  | [] => ""
  | x :: xs => xs.foldl (fun acc s => acc ++ "|" ++ s) x

/-- `stable_json._to_sort_key(jsonobj, None)`, indexed by the (known at every
call site) schema of the document: strings (and serialised byte strings) map
to `"s"+s`, ints to `"i{:09d}"`, bools to ints, lists join element keys with
`"|"`; anything else hits the `assert False`. -/
def sortKeyNoSchema : SJTy → SJson → Option String
  | .tstr, .jstr s => some ("s" ++ s)
  | .tbytes, .jstr s => some ("s" ++ s)
  | .tint, .jint n => some (intSortKey n)
  | .tbool, .jbool b => some (intSortKey (if b then 1 else 0))
  | .tlist _ e, .jlist l => (optMap (sortKeyNoSchema e) l).map joinBar
  | _, _ => none

/-- `stable_json._to_sort_key(jsonobj, sjlist)`: the key of the first schema
field present in the serialised object. -/
def sortKeyWithSchema : List (String × SJTy × Option SJPrim) → SJson → Option String
  | [], _ => none
  | (name, fty, _) :: fs, j =>
    match j with
    | .jobj kvs =>
      match alistGet kvs name with
      | some v => sortKeyNoSchema fty v
      | none => sortKeyWithSchema fs j
    | _ => none

/-- Content of a string document. -/
def jstrContent : SJson → Option String
  | .jstr s => some s
  | _ => none

/-- Numeric content of an int document. -/
def jintContent : SJson → Option Int
  | .jint n => some n
  | _ => none

/-- Numeric content of a bool document (Python `bool` is an `int`). -/
def jboolContent : SJson → Option Int
  | .jbool b => some (if b then 1 else 0)
  | _ => none

/-- Python `sorted(js, key=keyf)`: compute all keys (failing if any key
computation fails), stable-sort by key. -/
def sortJsonsGeneric {κ : Type} (le : κ → κ → Bool) (keyf : SJson → Option κ)
    (js : List SJson) : Option (List SJson) :=
  match optMap (fun j => (keyf j).map (fun k => (k, j))) js with
  | none => none
  | some kjs => some ((sortLeB (fun a b => le a.1 b.1) kjs).map Prod.snd)

/-- `stable_json._stable_json_list`'s sort step on the serialised elements:
strings and byte strings sort by content, ints and bools numerically,
objects by their `_to_sort_key`; a non-empty list of any other element type
hits the `assert False`. -/
def sortSerialized : SJTy → List SJson → Option (List SJson)
  | _, [] => some []
  | .tstr, js => sortJsonsGeneric strLeB jstrContent js
  | .tbytes, js => sortJsonsGeneric strLeB jstrContent js
  | .tint, js => sortJsonsGeneric (fun a b => a ≤ b) jintContent js
  | .tbool, js => sortJsonsGeneric (fun a b => a ≤ b) jboolContent js
  | .tobj fields, js => sortJsonsGeneric strLeB (sortKeyWithSchema fields) js
  | _, _ => none

/-- `stable_json.to_stable_json` on a typed value: primitives serialise
directly (bytes via `to_json_hash`); lists elementwise, then sorted unless
flagged `Unsorted`; dicts entrywise, sorted by the serialised key's sort
key; `twrap` passes through (`None`/empty fall through to an empty object
document); objects emit their non-omitted fields in declaration order,
omitting empty lists, empty dicts and values equal to the declared
default. -/
def serialiseVal : SJTy → SJVal → Option SJson
  | .tstr, .vstr s => some (.jstr s)
  | .tint, .vint n => some (.jint n)
  | .tbool, .vbool b => some (.jbool b)
  | .tbytes, .vbytes b => some (.jstr (to_json_hash b))
  | .tlist unsorted e, .vlist l =>
    match optMap (serialiseVal e) l with
    | none => none
    | some js =>
      if unsorted then some (.jlist js)
      else
        match sortSerialized e js with
        | none => none
        | some js' => some (.jlist js')
  | .tdict kt vt, .vdict entries =>
    match optMap (fun kv =>
      match serialiseVal kt kv.1, serialiseVal vt kv.2 with
      | some (.jstr ks), some vj =>
        match sortKeyNoSchema kt (.jstr ks) with
        | some sk => some (sk, ks, vj)
        | none => none
      | _, _ => none) entries with
    | none => none
    | some triples =>
      some (.jobj ((sortLeB (fun a b => strLeB a.1 b.1) triples).map
        (fun t => (t.2.1, t.2.2))))
  | .twrap inner, .vobj [v] =>
    match v with
    | .vlist [] => some (.jobj [])
    | .vdict [] => some (.jobj [])
    | _ => serialiseVal inner v
  | .tobj fields, .vobj vs => (goFields fields vs).map .jobj
  | _, _ => none
where goFields : List (String × SJTy × Option SJPrim) → List SJVal →
    Option (List (String × SJson))
  | [], [] => some []
  | (name, fty, dflt) :: fs, v :: vs =>
    if (match v with | .vlist [] => true | .vdict [] => true | _ => false)
        || (match dflt, primOfVal v with
            | some d, some pv => d = pv
            | _, _ => false) then
      goFields fs vs
    else
      match serialiseVal fty v, goFields fs vs with
      | some j, some r => some ((name, j) :: r)
      | _, _ => none
  | _, _ => none

/-- Loading a dict key from its serialised string form: the key template is
asserted primitive in the source, and after `json.dump` only string keys
survive, so keys are `str` or `bytes` (via `from_json_hash`). -/
def loadKey : SJTy → String → Option SJVal
  | .tstr, s => some (.vstr s)
  | .tbytes, s => (from_json_hash s).map .vbytes
  | _, _ => none

/-- No dict key occurs twice (under Python `==`) — the loader's
`assert ktgt not in target2` fails on any duplicate, regardless of which
occurrence triggers it. -/
def noDupKeys : List (SJVal × SJVal) → Bool
  | [] => true
  | kv :: rest =>
    rest.all (fun kv2 => !primEq kv2.1 kv.1) && noDupKeys rest

/-- `stable_json.from_stable_json` on a document at a schema: primitives
load back (`bool(int)` allowed, byte strings via `from_json_hash`); lists
elementwise; dicts parse keys, reject duplicates, parse values; `twrap`
loads the wrapped field from the whole document; objects look every schema
field up by name, reject unknown keys, and restore an omitted field to the
empty list, the empty dict or the declared default. -/
def loadVal : SJTy → SJson → Option SJVal
  | .tstr, .jstr s => some (.vstr s)
  | .tint, .jint n => some (.vint n)
  | .tbool, .jbool b => some (.vbool b)
  | .tbool, .jint n => some (.vbool (decide (n ≠ 0)))
  | .tbytes, .jstr s => (from_json_hash s).map .vbytes
  | .tlist _ e, .jlist js => (optMap (loadVal e) js).map .vlist
  | .tdict kt vt, .jobj kvs =>
    (match optMap (fun kv =>
        match loadKey kt kv.1, loadVal vt kv.2 with
        | some k, some v => some (k, v)
        | _, _ => none) kvs with
     | none => none
     | some entries =>
       if noDupKeys entries then some (.vdict entries) else none)
  | .twrap inner, j => (loadVal inner j).map (fun v => .vobj [v])
  | .tobj fields, .jobj kvs =>
    if kvs.all (fun kv => (fields.map (fun f => f.1)).contains kv.1) then
      (goFields fields kvs).map .vobj
    else none
  | _, _ => none
where goFields : List (String × SJTy × Option SJPrim) → List (String × SJson) →
    Option (List SJVal)
  | [], _ => some []
  | (name, fty, dflt) :: fs, kvs =>
    match (match alistGet kvs name with
           | some j => loadVal fty j
           | none =>
             match fty, dflt with
             | .tlist _ _, _ => some (.vlist [])
             | .tdict _ _, _ => some (.vdict [])
             | .tstr, some d => some (valOfPrim d)
             | .tint, some d => some (valOfPrim d)
             | .tbool, some d => some (valOfPrim d)
             | .tbytes, some d => some (valOfPrim d)
             | _, _ => none),
        goFields fs kvs with
    | some v, some r => some (v :: r)
    | _, _ => none

/-- The per-entry serialisation step of `_to_stable_json_dict`: serialise the
key (which must come out as a string document), the value, and compute the
key's sort key. -/
def dictTriple (kt vt : SJTy) (kv : SJVal × SJVal) :
    Option (String × String × SJson) :=
  match serialiseVal kt kv.1, serialiseVal vt kv.2 with
  | some (.jstr ks), some vj =>
    (match sortKeyNoSchema kt (.jstr ks) with
     | some sk => some (sk, ks, vj)
     | none => none)
  | _, _ => none

/-- The per-entry loading step of `from_stable_json` on a dict document. -/
def dictEntry (kt vt : SJTy) (kv : String × SJson) : Option (SJVal × SJVal) :=
  match loadKey kt kv.1, loadVal vt kv.2 with
  | some k, some v => some (k, v)
  | _, _ => none

/-- The per-element sort keys of a serialised list are in (non-strictly)
sorted order — the condition under which Python's stable sort keeps the
serialised order intact. -/
def serializedKeysChain : SJTy → List SJson → Bool
  | .tstr, js =>
    (match optMap jstrContent js with
     | none => false
     | some ks => chainLeB strLeB ks)
  | .tbytes, js =>
    (match optMap jstrContent js with
     | none => false
     | some ks => chainLeB strLeB ks)
  | .tint, js =>
    (match optMap jintContent js with
     | none => false
     | some ks => chainLeB (fun a b => a ≤ b) ks)
  | .tbool, js =>
    (match optMap jboolContent js with
     | none => false
     | some ks => chainLeB (fun a b => a ≤ b) ks)
  | .tobj fields, js =>
    (match optMap (sortKeyWithSchema fields) js with
     | none => false
     | some ks => chainLeB strLeB ks)
  | _, js => js.isEmpty

/-- Sortedness of the serialised forms of a to-be-sorted list (the condition
under which Python's stable sort keeps the order). -/
def sortedCheck (e : SJTy) (l : List SJVal) : Bool :=
  match optMap (serialiseVal e) l with
  | none => false
  | some js => serializedKeysChain e js

/-- The serialised string form of a dict key (keys must serialise to string
documents to survive `json.dump`). -/
def keySerial (kt : SJTy) (k : SJVal) : Option String :=
  match serialiseVal kt k with
  | some (.jstr ks) => some ks
  | _ => none

/-- Canonicity of a dict's key sequence: every key serialises to a string
document, the strings are (non-strictly) sorted and pairwise distinct. -/
def dictKeysCanon (kt : SJTy) (keys : List SJVal) : Bool :=
  match optMap (keySerial kt) keys with
  | none => false
  | some kss => chainLeB strLeB kss && pairwiseNeB kss

/-- A value is canonical at a schema when it is well-typed, its byte strings
round-trip (all bytes `< 256`, length not 1, 2 or 4 mod 9), its sorted-flag
lists are already in canonical order, its dict keys are sorted and distinct,
its object field names are distinct, and no `twrap` wraps an empty list. -/
def isCanonical : SJTy → SJVal → Bool
  | .tstr, .vstr _ => true
  | .tint, .vint _ => true
  | .tbool, .vbool _ => true
  | .tbytes, .vbytes b =>
    b.all (fun x => decide (x < 256)) && decide (b.length % 9 ≠ 1)
      && decide (b.length % 9 ≠ 2) && decide (b.length % 9 ≠ 4)
  | .tlist unsorted e, .vlist l =>
    goList e l && (unsorted || sortedCheck e l)
  | .tdict kt vt, .vdict entries =>
    goDict kt vt entries && dictKeysCanon kt (entries.map (fun kv => kv.1))
  | .twrap inner, .vobj [v] =>
    (match v with | .vlist [] => false | _ => true) && isCanonical inner v
  | .tobj fields, .vobj vs =>
    goFields fields vs && pairwiseNeB (fields.map (fun f => f.1))
  | _, _ => false
where
  goList : SJTy → List SJVal → Bool
    | _, [] => true
    | e, v :: vs => isCanonical e v && goList e vs
  goDict : SJTy → SJTy → List (SJVal × SJVal) → Bool
    | _, _, [] => true
    | kt, vt, kv :: rest => isCanonical kt kv.1 && isCanonical vt kv.2
        && goDict kt vt rest
  goFields : List (String × SJTy × Option SJPrim) → List SJVal → Bool
    | [], [] => true
    | (_, fty, _) :: fs, v :: vs => isCanonical fty v && goFields fs vs
    | _, _ => false

/-- A sample schema exercising every SUMMON_JSON construct: a defaulted
string field, a sorted int list, a str-keyed dict, a bytes field and a
wrapped single-field object. -/
def sampleSchema : SJTy :=
  .tobj [("a", .tstr, some (.pstr "")),
         ("b", .tlist false .tint, none),
         ("c", .tdict .tstr .tint, none),
         ("d", .tbytes, none),
         ("w", .twrap (.tobj [("x", .tint, some (.pint 0))]), none)]

/-- A sample canonical value at `sampleSchema`. -/
def sampleValue : SJVal :=
  .vobj [.vstr "hello", .vlist [.vint 1, .vint 2],
         .vdict [(.vstr "k1", .vint 5), (.vstr "k2", .vint 6)],
         .vbytes [0, 1, 2, 3, 4, 5, 6, 7, 8],
         .vobj [.vobj [.vint 7]]]

/-- The serialised document of `sampleValue`. -/
def sampleDoc : SJson :=
  .jobj [("a", .jstr "hello"),
         ("b", .jlist [.jint 1, .jint 2]),
         ("c", .jobj [("k1", .jint 5), ("k2", .jint 6)]),
         ("d", .jstr "AAECAwQFBgcI"),
         ("w", .jobj [("x", .jint 7)])]

/-! ## Folder cache (`cache/folder_cache.py`)

`FolderCache.scan_dir` walks the live tree; the model flattens the walk into
the list of live regular files, each carrying its `lstat` timestamp and
size and — standing for its on-disk content — the hash a fresh hashing
task would compute. -/

/-- A live regular file as `scan_dir` observes it: path, `lstat` timestamp,
size, and the hash of its current content. -/
structure LiveFile where
  file_path : String
  tstamp : Int
  fsize : Nat
  thash : Bytes
deriving DecidableEq, Repr

/-- Whether the loaded record for a live file matches: a record exists and
its stored timestamp equals the `lstat` timestamp; a size change despite an
equal timestamp clears the match (with a warning) in `scan_dir`. -/
def matchedB (loaded : List (String × FileOnDisk)) (f : LiveFile) : Bool :=
  match alistGet loaded f.file_path with
  | some found => found.file_modified = f.tstamp && found.file_size = f.fsize
  | none => false

/-- `FolderCache.scan_dir` over the live files: a found loaded record enters
`sdout.scanned_files` (keyed by path, so the binding order of this
lookup-only dict is immaterial); an unmatched file enters
`sdout.requested_files` in walk order. -/
def scan_pass (loaded : List (String × FileOnDisk)) :
    List LiveFile → List (String × FileOnDisk) × List LiveFile
  | [] => ([], [])
  | f :: rest =>
    match alistGet loaded f.file_path with
    | some found =>
      if found.file_modified = f.tstamp ∧ found.file_size = f.fsize then
        ((f.file_path, found) :: (scan_pass loaded rest).1,
         (scan_pass loaded rest).2)
      else
        ((f.file_path, found) :: (scan_pass loaded rest).1,
         f :: (scan_pass loaded rest).2)
    | none => ((scan_pass loaded rest).1, f :: (scan_pass loaded rest).2)

/-- The record a hashing task produces for a requested file. -/
def hashFile (f : LiveFile) : FileOnDisk :=
  ⟨f.thash, f.tstamp, f.file_path, f.fsize⟩

/-- `_own_calc_hash_task_func` over the requested files: each completed
hashing task stores its fresh record both in `scannedfiles` and in
`_files_by_path`. -/
def hash_pass : List LiveFile → List (String × FileOnDisk) →
    List (String × FileOnDisk) →
    List (String × FileOnDisk) × List (String × FileOnDisk)
  | [], scanned, updated => (scanned, updated)
  | f :: rest, scanned, updated =>
    hash_pass rest (alistSet scanned f.file_path (hashFile f))
      (alistSet updated f.file_path (hashFile f))

/-- `_own_reconcile_task_func`: keep exactly the `_files_by_path` entries
whose path was observed during the scan, in insertion order. -/
def reconcile (files_by_path scannedfiles : List (String × FileOnDisk)) :
    List (String × FileOnDisk) :=
  files_by_path.filter (fun pr => (alistGet scannedfiles pr.1).isSome)

/-- A full folder-cache run: scan against the loaded map, hash the
requested files (updating both `scannedfiles` and `_files_by_path`), then
reconcile; the result is the map handed to the save task. -/
def folder_cache_run (loaded : List (String × FileOnDisk))
    (live : List LiveFile) : List (String × FileOnDisk) :=
  match scan_pass loaded live with
  | (scanned0, requested) =>
    match hash_pass requested scanned0 loaded with
    | (scanned, updated) => reconcile updated scanned

/-! ## Parallel task scheduler (`tasks/_tasks_parallel.py`)

The model keeps the parts of `Parallel` relevant to dependency safety:
`_all_task_nodes` (name-keyed node map), the ready set (standing for both
`_ready_task_nodes` and its heap), and `_pending_patterns`.  Weights,
processes and data-dependency tags are orthogonal to the safety property and
are omitted. -/

/-- `_TaskGraphNodeState`. -/
inductive TaskState where
  | Pending
  | Ready
  | Running
  | Done
deriving DecidableEq, Repr

/-- The integer value used by the `int(state) < int(Done)` comparisons. -/
def TaskState.toNat : TaskState → Nat
  | .Pending => 0
  | .Ready => 1
  | .Running => 2
  | .Done => 3

/-- `_TaskGraphNode`: name, resolved (non-pattern) parent names, state,
`waiting_for_n_deps`, and child names. -/
structure TNode where
  name : String
  parents : List String
  state : TaskState
  waiting_for_n_deps : Nat
  children : List String
deriving DecidableEq, Repr

/-- The scheduler state visible to `_internal_add_task_if`,
`_schedule_best_tasks` and `mark_as_done_and_handle_children`. -/
structure SchedState where
  nodes : List (String × TNode)
  ready : List String
  pending_patterns : List (String × String)
deriving DecidableEq, Repr

/-- `Parallel._dependencies_to_parents`: a trailing-`*` dependency becomes a
pattern (star stripped), any other must resolve in `_all_task_nodes`. -/
def splitDeps (nodes : List (String × TNode)) :
    List String → Option (List String × List String)
  | [] => some ([], [])
  | d :: rest =>
    match splitDeps nodes rest with
    | none => none
    | some (ps, pats) =>
      match d.data.getLast? with
      | some c =>
        if c = '*' then some (ps, (⟨d.data.dropLast⟩ : String) :: pats)
        else
          match alistGet nodes d with
          | some _ => some (d :: ps, pats)
          | none => none
      | none =>
        match alistGet nodes d with
        | some _ => some (d :: ps, pats)
        | none => none

/-- Increment a node's `waiting_for_n_deps` in place. -/
def bumpWaiting (nodes : List (String × TNode)) (nm : String) :
    List (String × TNode) :=
  match alistGet nodes nm with
  | some n =>
    alistSet nodes nm ⟨n.name, n.parents, n.state, n.waiting_for_n_deps + 1,
      n.children⟩
  | none => nodes

/-- Append a child name to a node's children in place. -/
def addChild (nodes : List (String × TNode)) (nm child : String) :
    List (String × TNode) :=
  match alistGet nodes nm with
  | some n =>
    alistSet nodes nm ⟨n.name, n.parents, n.state, n.waiting_for_n_deps,
      n.children ++ [child]⟩
  | none => nodes

/-- `Parallel._internal_add_task_if` (weights and data-dependency tags
omitted): resolve dependencies, insert the Pending node, hook up resolved
parents, hook the new node to live tasks matching its patterns, register the
patterns, promote to Ready if no dependency is waiting — and then, for every
pending pattern the new task's NAME matches, increment the waiting count of
the pattern's owner and record the child link, with no state check and no
removal from the ready set. -/
def addTask (s : SchedState) (name : String) (dependencies : List String) :
    Option SchedState :=
  match splitDeps s.nodes dependencies with
  | none => none
  | some (taskparents, patterns) =>
    match
      (patterns.foldl
        (fun (acc : List (String × TNode) × List (String × String)) p =>
          ((acc.1.map (fun kv => kv.1)).foldl
            (fun nodes k =>
              match alistGet nodes k with
              | some n =>
                if n.state.toNat < TaskState.Done.toNat &&
                    pyStartsWith n.name p then
                  addChild (bumpWaiting nodes name) k name
                else nodes
              | none => nodes) acc.1,
           acc.2 ++ [(p, name)]))
        (taskparents.foldl
          (fun nodes pname =>
            match alistGet nodes pname with
            | some pn =>
              if pn.state.toNat < TaskState.Done.toNat then
                bumpWaiting (addChild nodes pname name) name
              else addChild nodes pname name
            | none => nodes)
          (s.nodes ++ [(name, ⟨name, taskparents, .Pending, 0, []⟩)]), []))
    with
    | (nodesC, newpats) =>
      match alistGet nodesC name with
      | none => none
      | some node1 =>
        match
          (if node1.waiting_for_n_deps = 0 then
            (alistSet nodesC name ⟨node1.name, node1.parents, .Ready,
               node1.waiting_for_n_deps, node1.children⟩,
             s.ready ++ [name])
          else (nodesC, s.ready))
        with
        | (nodesD, ready') =>
          some ⟨(s.pending_patterns ++ newpats).foldl
              (fun nodes pp =>
                if pyStartsWith name pp.1 then
                  bumpWaiting (addChild nodes name pp.2) pp.2
                else nodes) nodesD,
            ready', s.pending_patterns ++ newpats⟩

/-- `_schedule_best_tasks`, restricted to popping one named ready task: the
node must be in the ready set and in the `Ready` state; it becomes
`Running`.  Nothing checks `waiting_for_n_deps` here. -/
def schedule (s : SchedState) (name : String) : Option SchedState :=
  if s.ready.contains name then
    match alistGet s.nodes name with
    | some n =>
      if n.state = .Ready then
        some ⟨alistSet s.nodes name ⟨n.name, n.parents, .Running,
            n.waiting_for_n_deps, n.children⟩,
          s.ready.erase name, s.pending_patterns⟩
      else none
    | none => none
  else none

/-- `mark_as_done_and_handle_children` (with the promotion of newly
dependency-free children to the ready set done by the caller): asserts the
node is Ready or Running, marks it Done, and for each child asserts
`Pending` state and a positive waiting count before decrementing; `none`
models a tripped assert. -/
def markDone (s : SchedState) (name : String) : Option SchedState :=
  match alistGet s.nodes name with
  | none => none
  | some n =>
    if n.state = .Ready ∨ n.state = .Running then
      n.children.foldl
        (fun (acc : Option SchedState) ch =>
          match acc with
          | none => none
          | some st =>
            match alistGet st.nodes ch with
            | none => none
            | some cn =>
              if cn.state = .Pending then
                if cn.waiting_for_n_deps = 0 then none
                else if cn.waiting_for_n_deps = 1 then
                  some ⟨alistSet st.nodes ch ⟨cn.name, cn.parents, .Ready, 0,
                      cn.children⟩,
                    st.ready ++ [ch], st.pending_patterns⟩
                else
                  some ⟨alistSet st.nodes ch ⟨cn.name, cn.parents, .Pending,
                      cn.waiting_for_n_deps - 1, cn.children⟩,
                    st.ready, st.pending_patterns⟩
              else none)
        (some ⟨alistSet s.nodes name ⟨n.name, n.parents, .Done,
            n.waiting_for_n_deps, n.children⟩,
          s.ready.erase name, s.pending_patterns⟩)
    else none

/-- The empty scheduler. -/
def emptySched : SchedState := ⟨[], [], []⟩

/-! ## Guessing pipeline (`commands/run_guess.py`)

The VFS, the project config's path mapping and the plugins are I/O-backed;
the embedding abstracts them as oracle functions: `vfsHash` maps an
intra-mod path to the source-VFS content hash of the corresponding file (if
present), `ignoredF` is `_IgnoredTargetFiles.ignored` after target mapping,
and the tool/patch oracles stand for `could_be_produced` (at `Maybe` or
better) and a successful archive-extraction-plus-`pplg.patch`. -/

/-- `ArInstallerDetails` (the sets modelled as insertion-ordered lists). -/
structure ArInstallerDetails where
  ignored : List String
  skip : List String
  files : List (String × FileInArchive)
  modified_since_install : List (String × FileInArchive)
deriving DecidableEq, Repr

/-- The per-installer population loop of `_ModInProgress.resolve_unique`
(run_guess.py:314-353) over `guess.all_desired_files()`, threading the
details record and the mod's `zero_files`; Python `assert`s are `none`. -/
def buildAic (ignoredF : String → Bool) (vfsHash : String → Option Bytes)
    (archive_files : List (String × List ArchiveFileRetriever)) :
    List (String × FileInArchive) → ArInstallerDetails → List String →
    Option (ArInstallerDetails × List String)
  | [], aic, zf => some (aic, zf)
  | (f, fia) :: rest, aic, zf =>
    if ignoredF f then
      buildAic ignoredF vfsHash archive_files rest
        ⟨aic.ignored ++ [f], aic.skip, aic.files, aic.modified_since_install⟩ zf
    else if (alistGet archive_files f).isNone then
      match vfsHash f with
      | none =>
        if aic.skip.contains f then none
        else
          buildAic ignoredF vfsHash archive_files rest
            ⟨aic.ignored, aic.skip ++ [f], aic.files,
              aic.modified_since_install⟩ zf
      | some srch =>
        if fia.file_hash = truncate_file_hash srch then
          if fia.file_hash = truncate_file_hash ZEROHASH ∧ zf.contains f then
            buildAic ignoredF vfsHash archive_files rest aic (zf.erase f)
          else none
        else
          if aic.skip.contains f ||
              (alistGet aic.modified_since_install f).isSome then none
          else
            buildAic ignoredF vfsHash archive_files rest
              ⟨aic.ignored, aic.skip ++ [f], aic.files,
                aic.modified_since_install ++ [(f, fia)]⟩ zf
    else
      match vfsHash f with
      | none => none
      | some srch =>
        if fia.file_hash = truncate_file_hash srch then
          if (alistGet aic.files f).isSome then none
          else
            buildAic ignoredF vfsHash archive_files rest
              ⟨aic.ignored, aic.skip, aic.files ++ [(f, fia)],
                aic.modified_since_install⟩ zf
        else
          if aic.skip.contains f ||
              (alistGet aic.modified_since_install f).isSome then none
          else
            buildAic ignoredF vfsHash archive_files rest
              ⟨aic.ignored, aic.skip ++ [f], aic.files,
                aic.modified_since_install ++ [(f, fia)]⟩ zf

/-- The inner retriever search of the same-mod pass (run_guess.py:617-625):
the first retriever whose archive is in `required_archives` with this mod as
the most recent requirer (`required_archives[arh][-1] == mod.name`). -/
def findSameMod (ra : List (Bytes × List String)) (modname : String)
    (retr : List ArchiveFileRetriever) : Option ArchiveFileRetriever :=
  retr.find? (fun r =>
    match alistGet ra r.archiveHash with
    | some lst => lst.getLast? = some modname
    | none => false)

/-- One mod's turn in the same-mod ambiguity-reduction pass
(run_guess.py:601-630): register the mod's installer archives in
`required_archives`, then overwrite each still-ambiguous file with its first
retriever from an archive this mod just required. -/
def stage2_same_mod (ra0 : List (Bytes × List String)) (modname : String)
    (install_from_hashes : List Bytes)
    (remaining : List (String × List ArchiveFileRetriever)) :
    List (Bytes × List String) × List (String × List ArchiveFileRetriever) :=
  match install_from_hashes.foldl
      (fun ra arh => add_to_dict_of_lists ra arh modname) ra0 with
  | ra2 =>
    (ra2,
     remaining.map (fun fr =>
       (fr.1,
        if 1 < fr.2.length then
          match findSameMod ra2 modname fr.2 with
          | some r => [r]
          | none => fr.2
        else fr.2)))

/-- The inner retriever search of the any-mod pass (run_guess.py:636-641):
no `break`, so the LAST retriever from any required archive wins. -/
def findLastRequired (ra : List (Bytes × List String))
    (retr : List ArchiveFileRetriever) : Option ArchiveFileRetriever :=
  retr.foldl
    (fun acc r => if (alistGet ra r.archiveHash).isSome then some r else acc)
    none

/-- The any-mod ambiguity-reduction pass for one mod (run_guess.py:632-645);
`assert found is not None` is `none`. -/
def stage2_any_mod (ra : List (Bytes × List String))
    (remaining : List (String × List ArchiveFileRetriever)) :
    Option (List (String × List ArchiveFileRetriever)) :=
  optMap (fun fr =>
    if 1 < fr.2.length then
      match findLastRequired ra fr.2 with
      | some r => some (fr.1, [r])
      | none => none
    else some fr) remaining

/-- Stage-0 classification of `_ModInProgress.add_file`: a file whose
resolver result is empty joins `unknown_files`; any other file joins the
zero/github/archive buckets. -/
def stage0_unknown (files : List (String × List FileRetriever)) : List String :=
  (files.filter (fun fr => fr.2.isEmpty)).map (fun fr => fr.1)

/-- The global-tools loop (run_guess.py:695-709): an unknown file that a
global tool could have produced moves from `unknown_files` to
`unknown_files_could_be_produced_by_tools`. -/
def global_tools_pass (toolFor : String → Option String)
    (candidates : List String) (unknown : List String) :
    List String × List (String × String) :=
  candidates.foldl
    (fun acc ff =>
      if acc.1.contains ff then
        match toolFor ff with
        | some tool => (acc.1.erase ff, acc.2 ++ [(ff, tool)])
        | none => acc
      else acc)
    (unknown, [])

/-- The patch-search loop (run_guess.py:717-770): an unknown
modified-since-install file with a working patch moves from `unknown_files`
to `patched`. -/
def patches_pass (patchFor : String → Option String)
    (candidates : List String) (unknown : List String) :
    List String × List (String × String) :=
  candidates.foldl
    (fun acc ff =>
      if acc.1.contains ff then
        match patchFor ff with
        | some pn => (acc.1.erase ff, acc.2 ++ [(ff, pn)])
        | none => acc
      else acc)
    (unknown, [])

/-- The fields of the emitted `ProjectMod` relevant to file accounting
(run_guess.py:881-889): `unknown_files`, the keys of
`unknown_files_could_be_produced_by_tools`, and the keys of `patched`. -/
structure ProjectModOut where
  unknown_files : List String
  unknown_files_by_tools : List String
  patches : List String
deriving DecidableEq, Repr

/-- The unknown-file lifecycle of one mod across `run_guess`: stage-0
classification, then the global-tools pass, then the patch pass, then
emission. -/
def run_guess_mod_files (files : List (String × List FileRetriever))
    (toolFor : String → Option String) (toolCandidates : List String)
    (patchFor : String → Option String) (patchCandidates : List String) :
    ProjectModOut :=
  match global_tools_pass toolFor toolCandidates (stage0_unknown files) with
  | (unknown1, bytools) =>
    match patches_pass patchFor patchCandidates unknown1 with
    | (unknown2, patched) =>
      ⟨unknown2, bytools.map (fun t => t.1), patched.map (fun t => t.1)⟩

end Summon

-- DEFINITIONS CONTINUE BELOW; THEOREMS START AFTER THE MARKER

namespace Summon

@[simp]
theorem mkSingleHelper_archive_hash (h : Bytes) (arfi : Archive × FileInArchive) :
    (mkSingleHelper h arfi).archive_hash = arfi.1.archive_hash := rfl

@[simp]
theorem mkSingleHelper_file_size (h : Bytes) (arfi : Archive × FileInArchive) :
    (mkSingleHelper h arfi).file_size = arfi.2.file_size := rfl

@[simp]
theorem helperLink_mkSingleHelper (h : Bytes) (arfi : Archive × FileInArchive) :
    helperLink (mkSingleHelper h arfi)
      = (arfi.1.archive_hash, arfi.1.archive_size, arfi.2) := rfl

/-- The nested-archive expansion produces link-identical chains for two query
digests: the query digest only enters the stored target-hash field, which
`retrieverLinks` drops. -/
theorem flatMap_links (rgd : RootGitData) (fuel : Nat) (h₁ h₂ : Bytes)
    (found : List (Archive × FileInArchive)) :
    (((found.map (mkSingleHelper h₁)).flatMap (fun r =>
        (⟨r.file_hash, r.file_size, [r]⟩ : ArchiveFileRetriever) ::
          (archived_file_retrievers_by_hash rgd fuel r.archive_hash).map
            (fun r2 => ⟨r2.file_hash, r2.file_size,
                        r2.single_archive_retrievers ++ [r]⟩))).map retrieverLinks)
      = (((found.map (mkSingleHelper h₂)).flatMap (fun r =>
        (⟨r.file_hash, r.file_size, [r]⟩ : ArchiveFileRetriever) ::
          (archived_file_retrievers_by_hash rgd fuel r.archive_hash).map
            (fun r2 => ⟨r2.file_hash, r2.file_size,
                        r2.single_archive_retrievers ++ [r]⟩))).map retrieverLinks) := by
  induction found with
  | nil => rfl
  | cons afi rest ih =>
    simp only [List.map_cons, List.flatMap_cons, List.map_append, ih,
      mkSingleHelper_archive_hash]
    congr 1
    simp only [List.map_cons, List.map_map]
    congr 1
    apply List.map_congr_left
    intro r2 _
    simp [retrieverLinks, Function.comp, List.map_append]

/-- C10 core: lookups and link-level retriever enumeration agree on any two
digests with equal 9-byte truncation. -/
theorem archived_links_eq_of_trunc_eq (rgd : RootGitData) (fuel : Nat)
    (h₁ h₂ : Bytes) (heq : truncate_file_hash h₁ = truncate_file_hash h₂) :
    archived_file_by_hash rgd h₁ = archived_file_by_hash rgd h₂ ∧
    (archived_file_retrievers_by_hash rgd fuel h₁).map retrieverLinks
      = (archived_file_retrievers_by_hash rgd fuel h₂).map retrieverLinks := by
  have hmap : archived_file_by_hash rgd h₁ = archived_file_by_hash rgd h₂ := by
    unfold archived_file_by_hash
    rw [heq]
  refine ⟨hmap, ?_⟩
  cases fuel with
  | zero => rfl
  | succ fuel =>
    simp only [archived_file_retrievers_by_hash]
    have hs₁ : single_archive_retrievers rgd h₁
        = match archived_file_by_hash rgd h₂ with
          | none => []
          | some found => found.map (mkSingleHelper h₁) := by
      unfold single_archive_retrievers
      rw [hmap]
    cases hfound : archived_file_by_hash rgd h₂ with
    | none =>
      rw [show single_archive_retrievers rgd h₁ = [] by rw [hs₁, hfound],
        show single_archive_retrievers rgd h₂ = [] by
          unfold single_archive_retrievers; rw [hfound]]
    | some found =>
      rw [show single_archive_retrievers rgd h₁ = found.map (mkSingleHelper h₁) by
            rw [hs₁, hfound],
        show single_archive_retrievers rgd h₂ = found.map (mkSingleHelper h₂) by
          unfold single_archive_retrievers; rw [hfound]]
      cases found with
      | nil => rfl
      | cons afi rest =>
        simp only [List.map_cons, List.isEmpty_cons, if_neg, Bool.false_eq_true,
          not_false_eq_true]
        exact flatMap_links rgd fuel h₁ h₂ (afi :: rest)

/-- Length of the produced github retriever list equals the number of cached
occurrences. -/
theorem github_retrievers_length (af : AvailableFiles) (h : Bytes)
    (occs : List FileOnDisk) (out : List GithubFileRetriever)
    (hocc : alistGet af.github_cache_by_hash h = some occs)
    (hres : github_file_retrievers_by_hash af h = some out) :
    out.length = occs.length := by
  unfold github_file_retrievers_by_hash at hres
  rw [hocc] at hres
  clear hocc
  induction occs generalizing out with
  | nil =>
    simp only [List.foldr_nil, Option.some.injEq] at hres
    simp [← hres]
  | cons gh rest ih =>
    simp only [List.foldr_cons] at hres
    cases hrec : rest.foldr _ (some []) with
    | none => rw [hrec] at hres; exact absurd hres (by simp)
    | some out' =>
      rw [hrec] at hres
      rcases hfil : af.github_folders.filter
          (fun d => pyStartsWith gh.file_path (d.folder af.root_git_dir)) with _ | ⟨d, ds⟩
      · rw [hfil] at hres; exact absurd hres (by simp)
      · cases ds with
        | nil =>
          rw [hfil] at hres
          simp only [Option.some.injEq] at hres
          subst hres
          simpa using ih out' hrec
        | cons d' ds' => rw [hfil] at hres; exact absurd hres (by simp)

theorem alistGet_alistSet_self {κ ν : Type} [DecidableEq κ]
    (out : List (κ × ν)) (k : κ) (v : ν) :
    alistGet (alistSet out k v) k = some v := by
  induction out with
  | nil => simp [alistSet, alistGet]
  | cons e rest ih =>
    by_cases hk : e.1 = k
    · simp [alistSet, alistGet, hk]
    · simp only [alistSet, alistGet, if_neg hk]
      exact ih

theorem alistGet_alistSet_other {κ ν : Type} [DecidableEq κ]
    (out : List (κ × ν)) (k k' : κ) (v : ν) (hne : k ≠ k') :
    alistGet (alistSet out k v) k' = alistGet out k' := by
  induction out with
  | nil => simp [alistSet, alistGet, hne]
  | cons e rest ih =>
    by_cases hk : e.1 = k
    · subst hk
      simp [alistSet, alistGet, hne]
    · simp only [alistSet, alistGet, if_neg hk]
      by_cases hk' : e.1 = k'
      · simp [hk']
      · simp only [if_neg hk']
        exact ih

/-- One `_add_to_out` call acts on its destination's cell by `cellStep`. -/
theorem addToOut_get_dst (out : List (String × (Int × FileInArchive)))
    (dst : String) (p : Int) (af : FileInArchive) :
    alistGet (fomod_add_to_out out dst p af) dst
      = cellStep (alistGet out dst) (p, af) := by
  unfold fomod_add_to_out cellStep
  cases hget : alistGet out dst with
  | none => simp [alistGet_alistSet_self]
  | some pa =>
    obtain ⟨oldpri, oldaf⟩ := pa
    by_cases h1 : oldpri < p
    · simp [h1, alistGet_alistSet_self]
    · by_cases h2 : p = oldpri
      · by_cases h3 : af.file_hash ≠ oldaf.file_hash
        · simp [h1, h2, h3, alistGet_alistSet_self]
        · simp [h1, h2, h3, hget]
      · simp [h1, h2, hget]

/-- One `_add_to_out` call leaves other destinations' cells unchanged. -/
theorem addToOut_get_other (out : List (String × (Int × FileInArchive)))
    (dst dst' : String) (p : Int) (af : FileInArchive) (hne : dst' ≠ dst) :
    alistGet (fomod_add_to_out out dst' p af) dst = alistGet out dst := by
  unfold fomod_add_to_out
  cases hget : alistGet out dst' with
  | none => simp [alistGet_alistSet_other _ _ _ _ hne]
  | some pa =>
    obtain ⟨oldpri, oldaf⟩ := pa
    by_cases h1 : oldpri < p
    · simp [h1, alistGet_alistSet_other _ _ _ _ hne]
    · by_cases h2 : p = oldpri
      · by_cases h3 : af.file_hash ≠ oldaf.file_hash
        · simp [h1, h2, h3, alistGet_alistSet_other _ _ _ _ hne]
        · simp [h1, h2, h3]
      · simp [h1, h2]

/-- The install map built by a write sequence, restricted to one destination,
is the cell-fold of that destination's writes. -/
theorem applyWrites_get_cell (dst : String) :
    ∀ (ws : List (String × Int × FileInArchive))
      (out : List (String × (Int × FileInArchive))),
    alistGet (ws.foldl (fun o w => fomod_add_to_out o w.1 w.2.1 w.2.2) out) dst
      = (ws.filter (fun w => w.1 = dst)).foldl
          (fun acc w => cellStep acc w.2) (alistGet out dst) := by
  intro ws
  induction ws with
  | nil => intro out; rfl
  | cons w rest ih =>
    intro out
    simp only [List.foldl_cons]
    rw [ih]
    by_cases hw : w.1 = dst
    · subst hw
      rw [List.filter_cons_of_pos (by simp)]
      simp only [List.foldl_cons]
      rw [addToOut_get_dst]
    · rw [List.filter_cons_of_neg (by simpa using hw)]
      rw [addToOut_get_other _ _ _ _ _ hw]

/-- `cellStep` never empties a cell. -/
theorem cellStep_isSome (acc : Option (Int × FileInArchive))
    (w : Int × FileInArchive) : (cellStep acc w).isSome := by
  unfold cellStep
  cases acc with
  | none => rfl
  | some pa =>
    obtain ⟨oldpri, oldaf⟩ := pa
    by_cases h1 : oldpri < w.1
    · simp [h1]
    · by_cases h2 : w.1 = oldpri
      · by_cases h3 : w.2.file_hash ≠ oldaf.file_hash
        · simp [h1, h2, h3]
        · simp [h1, h2, h3]
      · simp [h1, h2]

theorem cellFold_ne_none (wd : List (Int × FileInArchive)) (hne : wd ≠ []) :
    cellFold wd ≠ none := by
  unfold cellFold
  cases wd with
  | nil => exact absurd rfl hne
  | cons w rest =>
    rw [List.foldl_cons]
    have haux : ∀ (l : List (Int × FileInArchive)) (acc : Option (Int × FileInArchive)),
        acc.isSome → (l.foldl cellStep acc).isSome := by
      intro l
      induction l with
      | nil => intro acc h; exact h
      | cons x xs ihx => intro acc _; exact ihx _ (cellStep_isSome acc x)
    intro hcontra
    have := haux rest (cellStep none w) (cellStep_isSome none w)
    rw [hcontra] at this
    exact absurd this (by simp)

/-- Cell-fold result: its priority is the maximum of processed priorities and
its entry comes from one of the maximal-priority writes. -/
theorem cellFold_max_spec :
    ∀ (wd : List (Int × FileInArchive)) (p : Int) (af : FileInArchive),
    cellFold wd = some (p, af) →
    (∀ q ∈ wd.map Prod.fst, q ≤ p) ∧
    af ∈ (wd.filter (fun x => x.1 = p)).map Prod.snd := by
  intro wd
  induction wd using List.reverseRecOn with
  | nil =>
    intro p af h
    rw [cellFold, List.foldl_nil] at h
    exact Option.noConfusion h
  | append_singleton wd w ih =>
    intro p af h
    rw [cellFold, List.foldl_append, List.foldl_cons, List.foldl_nil] at h
    cases hprev : cellFold wd with
    | none =>
      have hwd : wd = [] := by
        by_contra hne
        exact cellFold_ne_none wd hne hprev
      subst hwd
      simp only [List.foldl_nil, cellStep, Option.some.injEq] at h
      have hp : w.1 = p := by rw [h]
      have haf : w.2 = af := by rw [h]
      constructor
      · intro q hq
        simp only [List.nil_append, List.map_cons, List.map_nil, List.mem_singleton] at hq
        omega
      · simp only [List.nil_append]
        rw [List.filter_cons_of_pos (by simp [hp]), List.filter_nil]
        simp [haf]
    | some pa =>
      obtain ⟨q, bf⟩ := pa
      rw [cellFold] at hprev
      rw [hprev] at h
      obtain ⟨hqmax, hbf⟩ := ih q bf hprev
      simp only [cellStep] at h
      by_cases h1 : q < w.1
      · rw [if_pos h1] at h
        simp only [Option.some.injEq] at h
        have hp : w.1 = p := congrArg Prod.fst h
        have haf : w.2 = af := congrArg Prod.snd h
        constructor
        · intro r hr
          simp only [List.map_append, List.map_cons, List.map_nil, List.mem_append,
            List.mem_singleton] at hr
          rcases hr with hr | hr
          · have := hqmax r hr
            omega
          · omega
        · rw [List.filter_append, List.filter_cons_of_pos (by simp [hp]), List.filter_nil]
          have : wd.filter (fun x => x.1 = p) = [] := by
            rw [List.filter_eq_nil_iff]
            intro x hx
            have := hqmax x.1 (List.mem_map_of_mem Prod.fst hx)
            simp only [decide_eq_true_eq]
            omega
          simp [this, haf]
      · rw [if_neg h1] at h
        by_cases h2 : w.1 = q
        · rw [if_pos h2] at h
          by_cases h3 : w.2.file_hash ≠ bf.file_hash
          · rw [if_pos h3] at h
            simp only [Option.some.injEq] at h
            have hp : w.1 = p := congrArg Prod.fst h
            have haf : w.2 = af := congrArg Prod.snd h
            constructor
            · intro r hr
              simp only [List.map_append, List.map_cons, List.map_nil, List.mem_append,
                List.mem_singleton] at hr
              rcases hr with hr | hr
              · have := hqmax r hr
                omega
              · omega
            · rw [List.filter_append, List.filter_cons_of_pos (by simp [hp]),
                List.filter_nil]
              simp [haf]
          · rw [if_neg h3] at h
            simp only [Option.some.injEq] at h
            have hp : q = p := congrArg Prod.fst h
            have haf : bf = af := congrArg Prod.snd h
            constructor
            · intro r hr
              simp only [List.map_append, List.map_cons, List.map_nil, List.mem_append,
                List.mem_singleton] at hr
              rcases hr with hr | hr
              · have := hqmax r hr
                omega
              · omega
            · rw [List.filter_append]
              refine List.mem_map.mpr ?_
              obtain ⟨x, hx, hxeq⟩ := List.mem_map.mp (hp ▸ haf ▸ hbf)
              exact ⟨x, List.mem_append_left _ hx, hxeq⟩
        · rw [if_neg h2] at h
          simp only [Option.some.injEq] at h
          have hp : q = p := congrArg Prod.fst h
          have haf : bf = af := congrArg Prod.snd h
          have hwlt : w.1 < q := by
            rcases lt_trichotomy w.1 q with hlt | heq | hgt
            · exact hlt
            · exact absurd heq h2
            · exact absurd hgt (by omega)
          constructor
          · intro r hr
            simp only [List.map_append, List.map_cons, List.map_nil, List.mem_append,
              List.mem_singleton] at hr
            rcases hr with hr | hr
            · have := hqmax r hr
              omega
            · omega
          · rw [List.filter_append]
            refine List.mem_map.mpr ?_
            obtain ⟨x, hx, hxeq⟩ := List.mem_map.mp (hp ▸ haf ▸ hbf)
            exact ⟨x, List.mem_append_left _ hx, hxeq⟩

/-- Cell-fold result under pairwise-distinct hashes among maximal-priority
writes: the recorded entry is the LAST maximal-priority write. -/
theorem cellFold_last_of_distinct :
    ∀ (wd : List (Int × FileInArchive)) (p : Int) (af : FileInArchive),
    cellFold wd = some (p, af) →
    ((wd.filter (fun x => x.1 = p)).map (fun x => x.2.file_hash)).Pairwise (· ≠ ·) →
    (wd.filter (fun x => x.1 = p)).getLast? = some (p, af) := by
  intro wd
  induction wd using List.reverseRecOn with
  | nil =>
    intro p af h
    rw [cellFold, List.foldl_nil] at h
    exact Option.noConfusion h
  | append_singleton wd w ih =>
    intro p af h hdist
    rw [cellFold, List.foldl_append, List.foldl_cons, List.foldl_nil] at h
    cases hprev : cellFold wd with
    | none =>
      have hwd : wd = [] := by
        by_contra hne
        exact cellFold_ne_none wd hne hprev
      subst hwd
      simp only [List.foldl_nil, cellStep, Option.some.injEq] at h
      have hp : w.1 = p := by rw [h]
      have haf : w.2 = af := by rw [h]
      simp only [List.nil_append]
      rw [List.filter_cons_of_pos (by simp [hp]), List.filter_nil]
      simp only [List.getLast?_singleton, Option.some.injEq]
      exact Prod.ext hp haf
    | some pa =>
      obtain ⟨q, bf⟩ := pa
      rw [cellFold] at hprev
      rw [hprev] at h
      obtain ⟨hqmax, hbf⟩ := cellFold_max_spec wd q bf hprev
      simp only [cellStep] at h
      by_cases h1 : q < w.1
      · rw [if_pos h1] at h
        simp only [Option.some.injEq] at h
        have hp : w.1 = p := congrArg Prod.fst h
        have haf : w.2 = af := congrArg Prod.snd h
        rw [List.filter_append, List.filter_cons_of_pos (by simp [hp]), List.filter_nil]
        have hnilf : wd.filter (fun x => x.1 = p) = [] := by
          rw [List.filter_eq_nil_iff]
          intro x hx
          have := hqmax x.1 (List.mem_map_of_mem Prod.fst hx)
          simp only [decide_eq_true_eq]
          omega
        rw [hnilf]
        simp only [List.nil_append, List.getLast?_singleton, Option.some.injEq]
        exact Prod.ext hp haf
      · rw [if_neg h1] at h
        by_cases h2 : w.1 = q
        · rw [if_pos h2] at h
          by_cases h3 : w.2.file_hash ≠ bf.file_hash
          · rw [if_pos h3] at h
            simp only [Option.some.injEq] at h
            have hp : w.1 = p := congrArg Prod.fst h
            have haf : w.2 = af := congrArg Prod.snd h
            rw [List.filter_append, List.filter_cons_of_pos (by simp [hp]),
              List.filter_nil]
            rw [List.getLast?_append_cons]
            simp only [List.getLast?_singleton, Option.some.injEq]
            exact Prod.ext hp haf
          · rw [if_neg h3] at h
            simp only [Option.some.injEq] at h
            have hp : q = p := congrArg Prod.fst h
            have haf : bf = af := congrArg Prod.snd h
            subst hp
            push_neg at h3
            rw [List.filter_append, List.filter_cons_of_pos (by simp [h2]),
              List.filter_nil] at hdist
            obtain ⟨x, hx, hxeq⟩ := List.mem_map.mp hbf
            have hinmap : bf.file_hash ∈
                (wd.filter (fun y => y.1 = q)).map (fun y => y.2.file_hash) := by
              refine List.mem_map.mpr ⟨x, hx, ?_⟩
              rw [hxeq]
            rw [List.map_append, List.map_cons, List.map_nil] at hdist
            have := (List.pairwise_append.mp hdist).2.2
            have hcontra := this bf.file_hash hinmap w.2.file_hash (by simp)
            rw [← h3] at hcontra
            exact absurd rfl hcontra
        · rw [if_neg h2] at h
          simp only [Option.some.injEq] at h
          have hp : q = p := congrArg Prod.fst h
          have haf : bf = af := congrArg Prod.snd h
          have hwlt : w.1 < q := by
            rcases lt_trichotomy w.1 q with hlt | heq | hgt
            · exact hlt
            · exact absurd heq h2
            · exact absurd hgt (by omega)
          have hfil : (wd ++ [w]).filter (fun x => x.1 = p)
              = wd.filter (fun x => x.1 = p) := by
            rw [List.filter_append, List.filter_cons_of_neg (by simp; omega),
              List.filter_nil, List.append_nil]
          rw [hfil]
          rw [hfil] at hdist
          exact ih p af (hp ▸ haf ▸ hprev) hdist

/-! ### Base64 round-trip lemmas -/

theorem sextets_lt_64 : ∀ (h : Bytes), (∀ b ∈ h, b < 256) →
    ∀ s ∈ bytesToSextets h, s < 64
  | [], _ => by simp [bytesToSextets]
  | [a], hlt => by
    have ha : a < 256 := hlt a (by simp)
    simp only [bytesToSextets, List.mem_cons, List.not_mem_nil, or_false]
    intro s hs
    rcases hs with rfl | rfl <;> omega
  | [a, b], hlt => by
    have ha : a < 256 := hlt a (by simp)
    have hb : b < 256 := hlt b (by simp)
    simp only [bytesToSextets, List.mem_cons, List.not_mem_nil, or_false]
    intro s hs
    rcases hs with rfl | rfl | rfl <;> omega
  | a :: b :: c :: rest, hlt => by
    have ha : a < 256 := hlt a (by simp)
    have hb : b < 256 := hlt b (by simp)
    have hc : c < 256 := hlt c (by simp)
    have ih := sextets_lt_64 rest (fun x hx => hlt x (by simp [hx]))
    simp only [bytesToSextets, List.cons_append, List.nil_append, List.mem_cons]
    intro s hs
    rcases hs with rfl | rfl | rfl | rfl | hs
    · omega
    · omega
    · omega
    · omega
    · exact ih s hs

theorem sextets_roundtrip : ∀ (h : Bytes), (∀ b ∈ h, b < 256) →
    sextetsToBytes (bytesToSextets h) = h
  | [], _ => rfl
  | [a], hlt => by
    have ha : a < 256 := hlt a (by simp)
    show [a / 4 * 4 + a % 4 * 16 / 16] = [a]
    have : a / 4 * 4 + a % 4 * 16 / 16 = a := by omega
    rw [this]
  | [a, b], hlt => by
    have ha : a < 256 := hlt a (by simp)
    have hb : b < 256 := hlt b (by simp)
    show [a / 4 * 4 + (a % 4 * 16 + b / 16) / 16,
          (a % 4 * 16 + b / 16) % 16 * 16 + b % 16 * 4 / 4] = [a, b]
    have e1 : a / 4 * 4 + (a % 4 * 16 + b / 16) / 16 = a := by omega
    have e2 : (a % 4 * 16 + b / 16) % 16 * 16 + b % 16 * 4 / 4 = b := by omega
    rw [e1, e2]
  | a :: b :: c :: rest, hlt => by
    have ha : a < 256 := hlt a (by simp)
    have hb : b < 256 := hlt b (by simp)
    have hc : c < 256 := hlt c (by simp)
    have ih := sextets_roundtrip rest (fun x hx => hlt x (by simp [hx]))
    simp only [bytesToSextets, List.cons_append, List.nil_append, sextetsToBytes,
      List.append_eq, ih]
    have e1 : a / 4 * 4 + (a % 4 * 16 + b / 16) / 16 = a := by omega
    have e2 : (a % 4 * 16 + b / 16) % 16 * 16 + (b % 16 * 4 + c / 64) / 4 = b := by
      omega
    have e3 : (b % 16 * 4 + c / 64) % 4 * 64 + c % 64 = c := by omega
    rw [e1, e2, e3]

theorem bytesToSextets_length : ∀ (h : Bytes),
    (bytesToSextets h).length = (4 * h.length + 2) / 3
  | [] => rfl
  | [_] => by simp [bytesToSextets]
  | [_, _] => by simp [bytesToSextets]
  | a :: b :: c :: rest => by
    have ih := bytesToSextets_length rest
    simp only [bytesToSextets, List.cons_append, List.nil_append, List.length_cons,
      List.length_append, ih]
    omega

theorem charSextet_sextetChar : ∀ n, n < 64 → charSextet (sextetChar n) = some n := by
  decide

theorem sextetChar_ne_pad : ∀ n, n < 64 → ¬(sextetChar n = '=') := by
  decide

theorem mapM_charSextet : ∀ (S : List Nat), (∀ s ∈ S, s < 64) →
    (S.map sextetChar).mapM charSextet = some S := by
  intro S
  induction S with
  | nil => intro _; rfl
  | cons s rest ih =>
    intro hlt
    rw [List.map_cons, List.mapM_cons]
    rw [charSextet_sextetChar s (hlt s (by simp)), ih (fun x hx => hlt x (by simp [hx]))]
    rfl

theorem rstripEq_append_pad (data : List Char) (n : Nat)
    (hd : ∀ c ∈ data, ¬(c = '=')) :
    rstripEq (data ++ List.replicate n '=') = data := by
  unfold rstripEq
  rw [List.reverse_append, List.reverse_replicate]
  have h1 : List.dropWhile (fun c => c = '=')
      (List.replicate n '=' ++ data.reverse)
      = List.dropWhile (fun c => c = '=') data.reverse := by
    induction n with
    | zero => simp
    | succ m ih => simpa [List.replicate_succ, List.dropWhile_cons] using ih
  have h2 : List.dropWhile (fun c => c = '=') data.reverse = data.reverse := by
    cases hrev : data.reverse with
    | nil => rfl
    | cons x xs =>
      have hx : x ∈ data := by
        rw [← List.mem_reverse, hrev]
        simp
      rw [List.dropWhile_cons]
      simp [hd x hx]
  rw [h1, h2, List.reverse_reverse]

theorem takeWhile_data_pad (data : List Char) (n : Nat)
    (hd : ∀ c ∈ data, ¬(c = '=')) :
    (data ++ List.replicate n '=').takeWhile (fun c => c ≠ '=') = data := by
  induction data with
  | nil =>
    cases n with
    | zero => rfl
    | succ m =>
      simp [List.replicate_succ, List.takeWhile_cons]
  | cons x xs ih =>
    have hx : ¬(x = '=') := hd x (by simp)
    have ih' := ih (fun c hc => hd c (by simp [hc]))
    simp only [ne_eq, decide_not] at ih'
    rw [List.cons_append, List.takeWhile_cons]
    simp [hx, ih']

/-- The full `from_json_hash ∘ to_json_hash` round-trip for byte strings
whose length is not congruent to 1, 2 or 4 modulo 9 (which covers the 32-byte
digests and 9-byte truncated digests the caches persist). -/
theorem from_to_json_hash_good (h : Bytes) (hbytes : ∀ b ∈ h, b < 256)
    (hm1 : h.length % 9 ≠ 1) (hm2 : h.length % 9 ≠ 2) (hm4 : h.length % 9 ≠ 4) :
    from_json_hash (to_json_hash h) = some h := by
  have hS64 : ∀ s ∈ bytesToSextets h, s < 64 := sextets_lt_64 h hbytes
  have hdata_ne : ∀ c ∈ (bytesToSextets h).map sextetChar, ¬(c = '=') := by
    intro c hc
    obtain ⟨s, hs, rfl⟩ := List.mem_map.mp hc
    exact sextetChar_ne_pad s (hS64 s hs)
  have hto : to_json_hash h = ⟨(bytesToSextets h).map sextetChar⟩ := by
    unfold to_json_hash
    rw [rstripEq_append_pad _ _ hdata_ne]
  rw [hto]
  have hlen : ((bytesToSextets h).map sextetChar).length = (4 * h.length + 2) / 3 := by
    rw [List.length_map]
    exact bytesToSextets_length h
  have hstr : from_json_hash ⟨(bytesToSextets h).map sextetChar⟩
      = b64decode ((bytesToSextets h).map sextetChar
          ++ List.replicate ((3 - ((bytesToSextets h).map sextetChar).length % 3) % 3)
            '=') := rfl
  rw [hstr]
  unfold b64decode
  rw [takeWhile_data_pad _ _ hdata_ne]
  rw [List.drop_left]
  unfold b64decodeAux
  have hall : (List.replicate ((3 - ((bytesToSextets h).map sextetChar).length % 3) % 3)
      '=').all (fun c => c = '=') = true := by
    rw [List.all_eq_true]
    intro c hc
    simp only [List.mem_replicate] at hc
    simp [hc.2]
  rw [if_pos hall]
  rw [mapM_charSextet _ hS64]
  simp only [List.length_replicate]
  rw [bytesToSextets_length h, hlen]
  have harith : (4 * h.length + 2) / 3 % 4 ≠ 1 ∧
      ((4 * h.length + 2) / 3 % 4 = 2 →
        2 ≤ (3 - (4 * h.length + 2) / 3 % 3) % 3) ∧
      ((4 * h.length + 2) / 3 % 4 = 0 ∨ (4 * h.length + 2) / 3 % 4 = 2 ∨
        (4 * h.length + 2) / 3 % 4 = 3) ∧
      ((4 * h.length + 2) / 3 % 4 = 3 →
        1 ≤ (3 - (4 * h.length + 2) / 3 % 3) % 3) := by
    omega
  obtain ⟨hne1, himp2, hcases, himp3⟩ := harith
  rw [if_neg hne1]
  rcases hcases with hc0 | hc2 | hc3
  · rw [if_pos hc0, sextets_roundtrip h hbytes]
  · rw [if_neg (by omega), if_pos hc2, if_pos (himp2 hc2),
      sextets_roundtrip h hbytes]
  · rw [if_neg (by omega), if_neg (by omega), if_pos (himp3 hc3),
      sextets_roundtrip h hbytes]

/-- A stable sort leaves an already-sorted list unchanged. -/
theorem sortLeB_chain_id {α : Type} (le : α → α → Bool) :
    ∀ l : List α, chainLeB le l = true → sortLeB le l = l := by
  intro l
  induction l with
  | nil => intro _; rfl
  | cons x xs ih =>
    intro h
    cases xs with
    | nil => rfl
    | cons y ys =>
      simp only [chainLeB, Bool.and_eq_true] at h
      have h2 : sortLeB le (y :: ys) = y :: ys := ih h.2
      have h3 : sortLeB le (x :: y :: ys) = insertLeB le x (sortLeB le (y :: ys)) := rfl
      rw [h3, h2]
      simp [insertLeB, h.1]

/-- Chain orderedness under a key function. -/
theorem chainLeB_map {α β : Type} (le : β → β → Bool) (f : α → β) :
    ∀ l : List α, chainLeB (fun a b => le (f a) (f b)) l = chainLeB le (l.map f) := by
  intro l
  induction l with
  | nil => rfl
  | cons x xs ih =>
    cases xs with
    | nil => rfl
    | cons y ys =>
      simp only [List.map_cons, chainLeB, ih]

/-- Every element of a successful `optMap` input maps to some output
element. -/
theorem optMap_mem {α β : Type} (f : α → Option β) :
    ∀ (l : List α) (bs : List β), optMap f l = some bs →
      ∀ a ∈ l, ∃ b, b ∈ bs ∧ f a = some b := by
  intro l
  induction l with
  | nil => intro bs _ a ha; cases ha
  | cons x xs ih =>
    intro bs h a ha
    simp only [optMap] at h
    cases hx : f x with
    | none => rw [hx] at h; cases h
    | some b0 =>
      rw [hx] at h
      cases hrest : optMap f xs with
      | none => rw [hrest] at h; cases h
      | some brest =>
        rw [hrest] at h
        cases h
        rcases List.mem_cons.mp ha with rfl | hmem
        · exact ⟨b0, List.mem_cons_self _ _, hx⟩
        · obtain ⟨b, hb, hfb⟩ := ih brest hrest a hmem
          exact ⟨b, List.mem_cons_of_mem _ hb, hfb⟩

/-- Tagging a successful `optMap` with its inputs: the key-value pairing used
by `sorted(js, key=...)` succeeds and projects back onto keys and inputs. -/
theorem optMap_pair_spec {α κ : Type} (keyf : α → Option κ) :
    ∀ (js : List α) (ks : List κ), optMap keyf js = some ks →
      ∃ kjs : List (κ × α),
        optMap (fun j => (keyf j).map (fun k => (k, j))) js = some kjs ∧
        kjs.map Prod.fst = ks ∧ kjs.map Prod.snd = js := by
  intro js
  induction js with
  | nil =>
    intro ks h
    cases h
    exact ⟨[], rfl, rfl, rfl⟩
  | cons j js' ih =>
    intro ks h
    simp only [optMap] at h
    cases hk : keyf j with
    | none => rw [hk] at h; cases h
    | some k0 =>
      rw [hk] at h
      cases hrest : optMap keyf js' with
      | none => rw [hrest] at h; cases h
      | some krest =>
        rw [hrest] at h
        cases h
        obtain ⟨kjs, hm, hfst, hsnd⟩ := ih krest hrest
        refine ⟨(k0, j) :: kjs, ?_, ?_, ?_⟩
        · simp only [optMap, hk, hm]
          rfl
        · simp [hfst]
        · simp [hsnd]

/-- `sorted(js, key=keyf)` is the identity on a list whose keys are already
in order. -/
theorem sortJsonsGeneric_id {κ : Type} (le : κ → κ → Bool)
    (keyf : SJson → Option κ) (js : List SJson) (ks : List κ)
    (h1 : optMap keyf js = some ks) (h2 : chainLeB le ks = true) :
    sortJsonsGeneric le keyf js = some js := by
  obtain ⟨kjs, hm, hfst, hsnd⟩ := optMap_pair_spec keyf js ks h1
  have hchain : chainLeB (fun a b => le a.1 b.1) kjs = true := by
    rw [chainLeB_map le Prod.fst kjs, hfst]
    exact h2
  rw [sortJsonsGeneric, hm]
  show some (List.map Prod.snd (sortLeB (fun a b => le a.1 b.1) kjs)) = some js
  rw [sortLeB_chain_id _ _ hchain, hsnd]

/-- The serialised-element sort of `_stable_json_list` is the identity when
the serialised keys are already in order. -/
theorem sortSerialized_id (e : SJTy) (js : List SJson)
    (h : serializedKeysChain e js = true) : sortSerialized e js = some js := by
  cases js with
  | nil => cases e <;> rfl
  | cons j js' =>
    cases e with
    | tstr =>
      simp only [serializedKeysChain] at h
      cases hks : optMap jstrContent (j :: js') with
      | none => rw [hks] at h; cases h
      | some ks =>
        rw [hks] at h
        exact sortJsonsGeneric_id _ _ _ _ hks h
    | tbytes =>
      simp only [serializedKeysChain] at h
      cases hks : optMap jstrContent (j :: js') with
      | none => rw [hks] at h; cases h
      | some ks =>
        rw [hks] at h
        exact sortJsonsGeneric_id _ _ _ _ hks h
    | tint =>
      simp only [serializedKeysChain] at h
      cases hks : optMap jintContent (j :: js') with
      | none => rw [hks] at h; cases h
      | some ks =>
        rw [hks] at h
        exact sortJsonsGeneric_id _ _ _ _ hks h
    | tbool =>
      simp only [serializedKeysChain] at h
      cases hks : optMap jboolContent (j :: js') with
      | none => rw [hks] at h; cases h
      | some ks =>
        rw [hks] at h
        exact sortJsonsGeneric_id _ _ _ _ hks h
    | tobj fields =>
      simp only [serializedKeysChain] at h
      cases hks : optMap (sortKeyWithSchema fields) (j :: js') with
      | none => rw [hks] at h; cases h
      | some ks =>
        rw [hks] at h
        exact sortJsonsGeneric_id _ _ _ _ hks h
    | tlist u e' => simp only [serializedKeysChain, List.isEmpty] at h; cases h
    | tdict kt vt => simp only [serializedKeysChain, List.isEmpty] at h; cases h
    | twrap inner => simp only [serializedKeysChain, List.isEmpty] at h; cases h

/-- Prefixing both sides with `"s"` does not change string comparison. -/
theorem strLeB_scons (a b : String) : strLeB ("s" ++ a) ("s" ++ b) = strLeB a b := by
  cases a with
  | mk la =>
    cases b with
    | mk lb =>
      show charListLe ('s' :: la) ('s' :: lb) = charListLe la lb
      simp [charListLe]

/-- A string-document sort key exists only at `str`/`bytes` schemas, and is
the content prefixed with `"s"`. -/
theorem sortKey_str_cases (kt : SJTy) (s sk : String)
    (h : sortKeyNoSchema kt (.jstr s) = some sk) :
    (kt = .tstr ∨ kt = .tbytes) ∧ sk = "s" ++ s := by
  cases kt <;> simp only [sortKeyNoSchema] at h <;> cases h <;> simp

/-- Python `==` on primitive values is sound for propositional equality. -/
theorem primEq_eq : ∀ a b : SJVal, primEq a b = true → a = b := by
  intro a b h
  cases a <;> cases b <;> simp only [primEq] at h <;> try cases h
  all_goals simp_all [primEq]

/-- The dict branch of the serialiser, phrased through `dictTriple`. -/
theorem serialiseVal_tdict (kt vt : SJTy) (entries : List (SJVal × SJVal)) :
    serialiseVal (.tdict kt vt) (.vdict entries) =
      match optMap (dictTriple kt vt) entries with
      | none => none
      | some triples =>
        some (.jobj ((sortLeB (fun a b => strLeB a.1 b.1) triples).map
          (fun t => (t.2.1, t.2.2)))) := rfl

/-- The dict branch of the loader, phrased through `dictEntry`. -/
theorem loadVal_tdict (kt vt : SJTy) (kvs : List (String × SJson)) :
    loadVal (.tdict kt vt) (.jobj kvs) =
      (match optMap (dictEntry kt vt) kvs with
       | none => none
       | some entries =>
         if noDupKeys entries then some (.vdict entries) else none) := rfl

/-- An elementwise-canonical list is canonical at each member. -/
theorem goList_mem (e : SJTy) :
    ∀ l : List SJVal, isCanonical.goList e l = true →
      ∀ v ∈ l, isCanonical e v = true := by
  intro l
  induction l with
  | nil => intro _ v hv; cases hv
  | cons x xs ih =>
    intro h v hv
    simp only [isCanonical.goList, Bool.and_eq_true] at h
    rcases List.mem_cons.mp hv with rfl | hm
    · exact h.1
    · exact ih h.2 v hm

/-- Lookup at the head of an association list. -/
theorem alistGet_head {κ ν : Type} [DecidableEq κ] (k : κ) (v : ν)
    (rest : List (κ × ν)) : alistGet ((k, v) :: rest) k = some v := by
  simp [alistGet]

/-- Lookup misses when no entry carries the key. -/
theorem alistGet_none_of_forall {κ ν : Type} [DecidableEq κ] :
    ∀ (l : List (κ × ν)) (k : κ), (∀ p ∈ l, ¬(p.1 = k)) →
      alistGet l k = none := by
  intro l k
  induction l with
  | nil => intro _; rfl
  | cons p rest ih =>
    intro h
    obtain ⟨k', v⟩ := p
    have hk' : ¬(k' = k) := h (k', v) (List.mem_cons_self _ _)
    simp only [alistGet, if_neg hk']
    exact ih (fun q hq => h q (List.mem_cons_of_mem _ hq))

/-- Names of the serialised object fields come from the schema. -/
theorem serFields_names :
    ∀ (fields : List (String × SJTy × Option SJPrim)) (vs : List SJVal)
      (kvs : List (String × SJson)),
      serialiseVal.goFields fields vs = some kvs →
      ∀ p ∈ kvs, p.1 ∈ fields.map (fun f => f.1) := by
  intro fields
  induction fields with
  | nil =>
    intro vs kvs h p hp
    cases vs with
    | nil => simp only [serialiseVal.goFields] at h; cases h; cases hp
    | cons v vs' => simp only [serialiseVal.goFields] at h; cases h
  | cons f fs ih =>
    intro vs kvs h p hp
    obtain ⟨name, fty, dflt⟩ := f
    cases vs with
    | nil => simp only [serialiseVal.goFields] at h; cases h
    | cons v vs' =>
      simp only [serialiseVal.goFields] at h
      split at h
      · have := ih vs' kvs h p hp
        simp only [List.map_cons, List.mem_cons]
        exact Or.inr this
      · cases hs : serialiseVal fty v with
        | none => rw [hs] at h; cases h
        | some j0 =>
          rw [hs] at h
          cases hr : serialiseVal.goFields fs vs' with
          | none => rw [hr] at h; cases h
          | some r =>
            rw [hr] at h
            cases h
            rcases List.mem_cons.mp hp with rfl | hm
            · simp
            · have := ih vs' r hr p hm
              simp only [List.map_cons, List.mem_cons]
              exact Or.inr this

/-- Loading object fields skips a leading document entry whose name no
schema field uses. -/
theorem loadFields_skip :
    ∀ (fs : List (String × SJTy × Option SJPrim)) (kvs : List (String × SJson))
      (nm : String) (j : SJson),
      (∀ f ∈ fs, ¬(f.1 = nm)) →
      loadVal.goFields fs ((nm, j) :: kvs) = loadVal.goFields fs kvs := by
  intro fs
  induction fs with
  | nil => intro kvs nm j _; rfl
  | cons f fs' ih =>
    intro kvs nm j hne
    obtain ⟨name, fty, dflt⟩ := f
    have hname : ¬(name = nm) := hne (name, fty, dflt) (List.mem_cons_self _ _)
    have hname' : ¬(nm = name) := fun hh => hname hh.symm
    simp only [loadVal.goFields]
    rw [ih kvs nm j (fun f hf => hne f (List.mem_cons_of_mem _ hf))]
    have halist : alistGet ((nm, j) :: kvs) name = alistGet kvs name := by
      simp [alistGet, hname']
    rw [halist]

/-- A canonical byte string survives the json round-trip. -/
theorem canonical_bytes_roundtrip (b : Bytes)
    (hc : isCanonical .tbytes (.vbytes b) = true) :
    from_json_hash (to_json_hash b) = some b := by
  simp only [isCanonical, Bool.and_eq_true] at hc
  obtain ⟨⟨⟨hall, h1⟩, h2⟩, h4⟩ := hc
  refine from_to_json_hash_good b ?_ ?_ ?_ ?_
  · intro x hx
    exact of_decide_eq_true (List.all_eq_true.mp hall x hx)
  · exact of_decide_eq_true h1
  · exact of_decide_eq_true h2
  · exact of_decide_eq_true h4

/-- A canonical primitive dict key loads back from its serialised string. -/
theorem key_roundtrip (kt : SJTy) (k : SJVal) (ks : String)
    (hprim : kt = SJTy.tstr ∨ kt = SJTy.tbytes)
    (hc : isCanonical kt k = true)
    (hs : serialiseVal kt k = some (.jstr ks)) :
    loadKey kt ks = some k := by
  rcases hprim with rfl | rfl
  · cases k <;> simp only [serialiseVal] at hs <;> try cases hs
    case inl.vstr.refl => rfl
  · cases k <;> simp only [serialiseVal] at hs <;> try cases hs
    case inr.vbytes.refl =>
      rename_i b
      show (from_json_hash (to_json_hash b)).map SJVal.vbytes = some (SJVal.vbytes b)
      rw [canonical_bytes_roundtrip b hc]
      rfl

/-- Pairwise-distinct serialised keys rule out duplicate dict keys. -/
theorem noDupKeys_of_pairwise (kt : SJTy) :
    ∀ (es : List (SJVal × SJVal)) (kss : List String),
      optMap (keySerial kt) (es.map (fun kv => kv.1)) = some kss →
      pairwiseNeB kss = true → noDupKeys es = true := by
  intro es
  induction es with
  | nil => intro kss _ _; rfl
  | cons e0 rest ih =>
    intro kss hser hpw
    simp only [List.map_cons, optMap] at hser
    cases hk0 : keySerial kt e0.1 with
    | none => rw [hk0] at hser; cases hser
    | some ks0 =>
      rw [hk0] at hser
      cases hrest : optMap (keySerial kt) (rest.map (fun kv => kv.1)) with
      | none => rw [hrest] at hser; cases hser
      | some kst =>
        rw [hrest] at hser
        cases hser
        simp only [pairwiseNeB, Bool.and_eq_true] at hpw
        obtain ⟨hhead, htail⟩ := hpw
        simp only [noDupKeys, Bool.and_eq_true]
        refine ⟨?_, ih kst hrest htail⟩
        rw [List.all_eq_true]
        intro kv2 hkv2
        cases hpe : primEq kv2.1 e0.1
        · rfl
        · exfalso
          have heq := primEq_eq _ _ hpe
          have hmem1 : kv2.1 ∈ rest.map (fun kv => kv.1) :=
            List.mem_map_of_mem _ hkv2
          obtain ⟨ks2, hks2mem, hks2⟩ := optMap_mem _ _ _ hrest kv2.1 hmem1
          rw [heq, hk0] at hks2
          cases hks2
          have := List.all_eq_true.mp hhead ks0 hks2mem
          simp at this

/-- Serialising then loading the entries of a canonical dict is the
identity, entrywise; the serialised sort keys are the key strings prefixed
with `"s"`. -/
theorem dict_roundtrip_aux (kt vt : SJTy)
    (hval : ∀ (v : SJVal) (j : SJson), isCanonical vt v = true →
      serialiseVal vt v = some j → loadVal vt j = some v) :
    ∀ (es : List (SJVal × SJVal)) (ts : List (String × String × SJson))
      (kss : List String),
      isCanonical.goDict kt vt es = true →
      optMap (dictTriple kt vt) es = some ts →
      optMap (keySerial kt) (es.map (fun kv => kv.1)) = some kss →
      ts.map (fun t => t.1) = kss.map (fun s => "s" ++ s) ∧
      optMap (dictEntry kt vt) (ts.map (fun t => (t.2.1, t.2.2))) = some es := by
  intro es
  induction es with
  | nil =>
    intro ts kss _ ht hk
    cases ht; cases hk
    exact ⟨rfl, rfl⟩
  | cons e0 rest ih =>
    intro ts kss hcanon ht hk
    obtain ⟨k0, v0⟩ := e0
    simp only [isCanonical.goDict, Bool.and_eq_true] at hcanon
    obtain ⟨⟨hck, hcv⟩, hcrest⟩ := hcanon
    simp only [optMap] at ht
    cases htr : dictTriple kt vt (k0, v0) with
    | none => rw [htr] at ht; cases ht
    | some t0 =>
      rw [htr] at ht
      cases hts : optMap (dictTriple kt vt) rest with
      | none => rw [hts] at ht; cases ht
      | some trest =>
        rw [hts] at ht
        cases ht
        simp only [dictTriple] at htr
        cases hsk : serialiseVal kt k0 with
        | none => rw [hsk] at htr; cases htr
        | some jk =>
          rw [hsk] at htr
          cases hsv : serialiseVal vt v0 with
          | none => rw [hsv] at htr; cases jk <;> cases htr
          | some vj0 =>
            rw [hsv] at htr
            cases jk <;> try cases htr
            case jstr ks0 =>
              have htr' : (match sortKeyNoSchema kt (SJson.jstr ks0) with
                  | some sk => some (sk, ks0, vj0)
                  | none => none) = some t0 := htr
              cases hsort : sortKeyNoSchema kt (.jstr ks0) with
              | none => rw [hsort] at htr'; cases htr'
              | some sk0 =>
                rw [hsort] at htr'
                cases htr'
                obtain ⟨hktcase, hsk0⟩ := sortKey_str_cases kt ks0 sk0 hsort
                simp only [List.map_cons, optMap] at hk
                have hkser : keySerial kt k0 = some ks0 := by
                  simp only [keySerial, hsk]
                rw [hkser] at hk
                cases hkrest : optMap (keySerial kt) (rest.map (fun kv => kv.1)) with
                | none => rw [hkrest] at hk; cases hk
                | some ksrest =>
                  rw [hkrest] at hk
                  cases hk
                  obtain ⟨ihfst, ihload⟩ := ih trest ksrest hcrest hts hkrest
                  constructor
                  · simp only [List.map_cons, ihfst, hsk0]
                  · simp only [List.map_cons, optMap]
                    have hload0 : dictEntry kt vt (ks0, vj0) = some (k0, v0) := by
                      simp only [dictEntry]
                      rw [key_roundtrip kt k0 ks0 hktcase hck hsk,
                        hval v0 vj0 hcv hsv]
                    rw [hload0, ihload]

/-- The element schema of a list schema is structurally smaller. -/
theorem sizeOf_tlist_elem (u : Bool) (e : SJTy) :
    sizeOf e < sizeOf (SJTy.tlist u e) := by
  simp only [SJTy.tlist.sizeOf_spec]
  omega

/-- The value schema of a dict schema is structurally smaller. -/
theorem sizeOf_tdict_v (kt vt : SJTy) :
    sizeOf vt < sizeOf (SJTy.tdict kt vt) := by
  simp only [SJTy.tdict.sizeOf_spec]
  omega

/-- The wrapped schema of a `twrap` is structurally smaller. -/
theorem sizeOf_twrap_inner (inner : SJTy) :
    sizeOf inner < sizeOf (SJTy.twrap inner) := by
  simp only [SJTy.twrap.sizeOf_spec]
  omega

/-- Every field schema of an object schema is structurally smaller. -/
theorem sizeOf_field_mem (fields : List (String × SJTy × Option SJPrim))
    (nm : String) (fty : SJTy) (d : Option SJPrim)
    (h : (nm, fty, d) ∈ fields) :
    sizeOf fty < sizeOf (SJTy.tobj fields) := by
  have h1 := List.sizeOf_lt_of_mem h
  simp only [SJTy.tobj.sizeOf_spec]
  simp only [Prod.mk.sizeOf_spec] at h1
  omega

/-- Loading the serialised document of a canonical value restores the value
exactly (strong induction on the schema size). -/
theorem load_serialise_canonical :
    ∀ (n : Nat) (ty : SJTy), sizeOf ty ≤ n → ∀ (v : SJVal) (j : SJson),
      isCanonical ty v = true → serialiseVal ty v = some j →
      loadVal ty j = some v := by
  intro n
  induction n with
  | zero =>
    intro ty hty
    exfalso
    cases ty <;> simp at hty
  | succ n ih =>
    intro ty hty v j hcanon hser
    cases ty with
    | tstr =>
      cases v <;> simp only [serialiseVal] at hser <;> cases hser
      rfl
    | tint =>
      cases v <;> simp only [serialiseVal] at hser <;> cases hser
      rfl
    | tbool =>
      cases v <;> simp only [serialiseVal] at hser <;> cases hser
      rfl
    | tbytes =>
      cases v <;> simp only [serialiseVal] at hser <;> cases hser
      rename_i b
      show (from_json_hash (to_json_hash b)).map SJVal.vbytes = some (SJVal.vbytes b)
      rw [canonical_bytes_roundtrip b hcanon]
      rfl
    | tlist unsorted e =>
      have hsz : sizeOf e ≤ n := by
        have h1 := sizeOf_tlist_elem unsorted e
        omega
      cases v <;> try (simp only [serialiseVal] at hser; cases hser)
      case vlist l =>
        simp only [serialiseVal] at hser
        cases hopt : optMap (serialiseVal e) l with
        | none => rw [hopt] at hser; cases hser
        | some js =>
          rw [hopt] at hser
          simp only [isCanonical, Bool.and_eq_true] at hcanon
          obtain ⟨hele, hflag⟩ := hcanon
          have hmem : ∀ w ∈ l, isCanonical e w = true := goList_mem e l hele
          have hmap : ∀ (l' : List SJVal) (js' : List SJson),
              (∀ w ∈ l', isCanonical e w = true) →
              optMap (serialiseVal e) l' = some js' →
              optMap (loadVal e) js' = some l' := by
            intro l'
            induction l' with
            | nil => intro js' _ hs0; cases hs0; rfl
            | cons w ws ihl =>
              intro js' hcs hs0
              simp only [optMap] at hs0
              cases hw : serialiseVal e w with
              | none => rw [hw] at hs0; cases hs0
              | some j0 =>
                rw [hw] at hs0
                cases hrest : optMap (serialiseVal e) ws with
                | none => rw [hrest] at hs0; cases hs0
                | some jrest =>
                  rw [hrest] at hs0
                  cases hs0
                  have hload := ih e hsz w j0 (hcs w (List.mem_cons_self _ _)) hw
                  have htail := ihl jrest
                    (fun x hx => hcs x (List.mem_cons_of_mem _ hx)) hrest
                  simp only [optMap, hload, htail]
          cases unsorted with
          | true =>
            have hser' : some (SJson.jlist js) = some j := hser
            cases hser'
            show (optMap (loadVal e) js).map SJVal.vlist = some (SJVal.vlist l)
            rw [hmap l js hmem hopt]
            rfl
          | false =>
            simp only [Bool.false_or] at hflag
            have hchain : serializedKeysChain e js = true := by
              simp only [sortedCheck] at hflag
              rw [hopt] at hflag
              exact hflag
            have hser' : (match sortSerialized e js with
                | none => none
                | some js2 => some (SJson.jlist js2)) = some j := hser
            rw [sortSerialized_id e js hchain] at hser'
            cases hser'
            show (optMap (loadVal e) js).map SJVal.vlist = some (SJVal.vlist l)
            rw [hmap l js hmem hopt]
            rfl
    | tdict kt vt =>
      have hszv : sizeOf vt ≤ n := by
        have h1 := sizeOf_tdict_v kt vt
        omega
      cases v <;> try (simp only [serialiseVal] at hser; cases hser)
      case vdict entries =>
        rw [serialiseVal_tdict] at hser
        simp only [isCanonical, Bool.and_eq_true] at hcanon
        obtain ⟨hgd, hdk⟩ := hcanon
        simp only [dictKeysCanon] at hdk
        cases hks : optMap (keySerial kt) (entries.map (fun kv => kv.1)) with
        | none => rw [hks] at hdk; cases hdk
        | some kss =>
          rw [hks] at hdk
          simp only [Bool.and_eq_true] at hdk
          obtain ⟨hchain, hpw⟩ := hdk
          cases hopt : optMap (dictTriple kt vt) entries with
          | none => rw [hopt] at hser; cases hser
          | some triples =>
            rw [hopt] at hser
            have hser' : some (SJson.jobj (List.map (fun t => (t.2.1, t.2.2))
                (sortLeB (fun a b => strLeB a.1 b.1) triples))) = some j := hser
            obtain ⟨hfst, hload⟩ := dict_roundtrip_aux kt vt
              (fun w jw hcw hsw => ih vt hszv w jw hcw hsw)
              entries triples kss hgd hopt hks
            have hchain2 : chainLeB (fun a b => strLeB a.1 b.1) triples = true := by
              rw [chainLeB_map strLeB Prod.fst triples]
              rw [show List.map Prod.fst triples =
                List.map (fun s => "s" ++ s) kss from hfst]
              rw [← chainLeB_map strLeB (fun s => "s" ++ s) kss]
              have hfun : (fun a b => strLeB ("s" ++ a) ("s" ++ b)) = strLeB := by
                funext a b
                exact strLeB_scons a b
              rw [hfun]
              exact hchain
            rw [sortLeB_chain_id _ _ hchain2] at hser'
            cases hser'
            rw [loadVal_tdict, hload]
            have hnd : noDupKeys entries = true :=
              noDupKeys_of_pairwise kt entries kss hks hpw
            show (if noDupKeys entries then some (SJVal.vdict entries) else none) =
              some (SJVal.vdict entries)
            rw [if_pos hnd]
    | twrap inner =>
      have hsz : sizeOf inner ≤ n := by
        have h1 := sizeOf_twrap_inner inner
        omega
      cases v <;> try (simp only [serialiseVal] at hser; cases hser)
      case vobj ws =>
        cases ws with
        | nil => simp only [isCanonical] at hcanon; exact Bool.noConfusion hcanon
        | cons w ws' =>
          cases ws' with
          | cons w2 ws'' =>
            simp only [isCanonical] at hcanon
            exact Bool.noConfusion hcanon
          | nil =>
            simp only [isCanonical, Bool.and_eq_true] at hcanon
            obtain ⟨hwne, hwc⟩ := hcanon
            cases w with
            | vlist l =>
              cases l with
              | nil => exact Bool.noConfusion hwne
              | cons x xs =>
                have hser' : serialiseVal inner (SJVal.vlist (x :: xs)) = some j := hser
                have hload := ih inner hsz _ j hwc hser'
                show (loadVal inner j).map (fun u => SJVal.vobj [u]) =
                  some (SJVal.vobj [SJVal.vlist (x :: xs)])
                rw [hload]
                rfl
            | vdict entries =>
              cases entries with
              | nil =>
                have hser' : some (SJson.jobj []) = some j := hser
                cases hser'
                cases inner <;> try (exact Bool.noConfusion hwc)
                case tdict kt vt =>
                  show (loadVal (SJTy.tdict kt vt) (SJson.jobj [])).map
                    (fun u => SJVal.vobj [u]) = some (SJVal.vobj [SJVal.vdict []])
                  rfl
              | cons e0 es =>
                have hser' : serialiseVal inner (SJVal.vdict (e0 :: es)) = some j := hser
                have hload := ih inner hsz _ j hwc hser'
                show (loadVal inner j).map (fun u => SJVal.vobj [u]) =
                  some (SJVal.vobj [SJVal.vdict (e0 :: es)])
                rw [hload]
                rfl
            | vstr s =>
              have hser' : serialiseVal inner (SJVal.vstr s) = some j := hser
              have hload := ih inner hsz _ j hwc hser'
              show (loadVal inner j).map (fun u => SJVal.vobj [u]) =
                some (SJVal.vobj [SJVal.vstr s])
              rw [hload]
              rfl
            | vint m =>
              have hser' : serialiseVal inner (SJVal.vint m) = some j := hser
              have hload := ih inner hsz _ j hwc hser'
              show (loadVal inner j).map (fun u => SJVal.vobj [u]) =
                some (SJVal.vobj [SJVal.vint m])
              rw [hload]
              rfl
            | vbool b =>
              have hser' : serialiseVal inner (SJVal.vbool b) = some j := hser
              have hload := ih inner hsz _ j hwc hser'
              show (loadVal inner j).map (fun u => SJVal.vobj [u]) =
                some (SJVal.vobj [SJVal.vbool b])
              rw [hload]
              rfl
            | vbytes b =>
              have hser' : serialiseVal inner (SJVal.vbytes b) = some j := hser
              have hload := ih inner hsz _ j hwc hser'
              show (loadVal inner j).map (fun u => SJVal.vobj [u]) =
                some (SJVal.vobj [SJVal.vbytes b])
              rw [hload]
              rfl
            | vobj us =>
              have hser' : serialiseVal inner (SJVal.vobj us) = some j := hser
              have hload := ih inner hsz _ j hwc hser'
              show (loadVal inner j).map (fun u => SJVal.vobj [u]) =
                some (SJVal.vobj [SJVal.vobj us])
              rw [hload]
              rfl
    | tobj fields =>
      cases v <;> try (simp only [serialiseVal] at hser; cases hser)
      case vobj vs =>
        simp only [serialiseVal] at hser
        cases hgf : serialiseVal.goFields fields vs with
        | none => rw [hgf] at hser; cases hser
        | some kvs =>
          rw [hgf] at hser
          cases hser
          simp only [isCanonical, Bool.and_eq_true] at hcanon
          obtain ⟨hcf, hnodup⟩ := hcanon
          have hnames := serFields_names fields vs kvs hgf
          have hall : kvs.all
              (fun kv => (fields.map (fun f => f.1)).contains kv.1) = true := by
            rw [List.all_eq_true]
            intro kv hkv
            exact List.elem_iff.mpr (hnames kv hkv)
          have hsf : ∀ p ∈ fields, sizeOf p.2.1 ≤ n := by
            intro p hp
            have h1 := sizeOf_field_mem fields p.1 p.2.1 p.2.2 hp
            omega
          have hF2 : ∀ (fs : List (String × SJTy × Option SJPrim))
              (vs' : List SJVal) (kvs' : List (String × SJson)),
              (∀ p ∈ fs, sizeOf p.2.1 ≤ n) →
              pairwiseNeB (fs.map (fun f => f.1)) = true →
              isCanonical.goFields fs vs' = true →
              serialiseVal.goFields fs vs' = some kvs' →
              loadVal.goFields fs kvs' = some vs' := by
            intro fs
            induction fs with
            | nil =>
              intro vs' kvs' _ _ hc hs
              cases vs' with
              | nil => cases hs; rfl
              | cons a b =>
                simp only [isCanonical.goFields] at hc
                exact Bool.noConfusion hc
            | cons f fs' ihf =>
              intro vs' kvs' hsf' hpwf hc hs
              obtain ⟨name, fty, dflt⟩ := f
              cases vs' with
              | nil =>
                simp only [isCanonical.goFields] at hc
                exact Bool.noConfusion hc
              | cons v0 vs0 =>
                simp only [isCanonical.goFields, Bool.and_eq_true] at hc
                obtain ⟨hcv0, hcrest⟩ := hc
                simp only [List.map_cons, pairwiseNeB, Bool.and_eq_true] at hpwf
                obtain ⟨hpwhead, hpwtail⟩ := hpwf
                have hsz0 : sizeOf fty ≤ n :=
                  hsf' (name, fty, dflt) (List.mem_cons_self _ _)
                have hszrest : ∀ p ∈ fs', sizeOf p.2.1 ≤ n :=
                  fun p hp => hsf' p (List.mem_cons_of_mem _ hp)
                have hnotin : ∀ f2 ∈ fs', ¬(f2.1 = name) := by
                  intro f2 hf2 hEq
                  have hx := List.all_eq_true.mp hpwhead f2.1
                    (List.mem_map_of_mem _ hf2)
                  rw [hEq] at hx
                  simp at hx
                simp only [serialiseVal.goFields] at hs
                split at hs
                · rename_i homit
                  have hload_rest := ihf vs0 kvs' hszrest hpwtail hcrest hs
                  have hnone : alistGet kvs' name = none := by
                    apply alistGet_none_of_forall
                    intro p hp hEq
                    have hmem2 := serFields_names fs' vs0 kvs' hs p hp
                    rw [hEq] at hmem2
                    obtain ⟨f2, hf2, hf2eq⟩ := List.mem_map.mp hmem2
                    exact hnotin f2 hf2 hf2eq
                  simp only [loadVal.goFields, hnone, hload_rest]
                  rw [Bool.or_eq_true] at homit
                  rcases homit with h1 | h2
                  · cases v0 with
                    | vlist l0 =>
                      cases l0 with
                      | nil =>
                        cases fty <;> try (exact Bool.noConfusion hcv0)
                        case tlist u e' => rfl
                      | cons a as => exact Bool.noConfusion h1
                    | vdict d0 =>
                      cases d0 with
                      | nil =>
                        cases fty <;> try (exact Bool.noConfusion hcv0)
                        case tdict kt' vt' => rfl
                      | cons a as => exact Bool.noConfusion h1
                    | vstr s => exact Bool.noConfusion h1
                    | vint m => exact Bool.noConfusion h1
                    | vbool b => exact Bool.noConfusion h1
                    | vbytes b => exact Bool.noConfusion h1
                    | vobj us => exact Bool.noConfusion h1
                  · cases dflt with
                    | none => cases v0 <;> exact Bool.noConfusion h2
                    | some d =>
                      cases v0 <;> try (exact Bool.noConfusion h2)
                      case vstr s =>
                        have hd := of_decide_eq_true h2
                        subst hd
                        cases fty <;> try (exact Bool.noConfusion hcv0)
                        case tstr => rfl
                      case vint m =>
                        have hd := of_decide_eq_true h2
                        subst hd
                        cases fty <;> try (exact Bool.noConfusion hcv0)
                        case tint => rfl
                      case vbool b =>
                        have hd := of_decide_eq_true h2
                        subst hd
                        cases fty <;> try (exact Bool.noConfusion hcv0)
                        case tbool => rfl
                      case vbytes b =>
                        have hd := of_decide_eq_true h2
                        subst hd
                        cases fty <;> try (exact Bool.noConfusion hcv0)
                        case tbytes => rfl
                · cases hsv0 : serialiseVal fty v0 with
                  | none => rw [hsv0] at hs; cases hs
                  | some j0 =>
                    rw [hsv0] at hs
                    cases hrest : serialiseVal.goFields fs' vs0 with
                    | none => rw [hrest] at hs; cases hs
                    | some r =>
                      rw [hrest] at hs
                      cases hs
                      have hmainload := ih fty hsz0 v0 j0 hcv0 hsv0
                      have htail := ihf vs0 r hszrest hpwtail hcrest hrest
                      have hskip := loadFields_skip fs' r name j0 hnotin
                      have hgoal : loadVal.goFields ((name, fty, dflt) :: fs')
                          ((name, j0) :: r) =
                          match loadVal fty j0,
                              loadVal.goFields fs' ((name, j0) :: r) with
                          | some w, some r2 => some (w :: r2)
                          | _, _ => none := by
                        simp only [loadVal.goFields, alistGet_head]
                      rw [hgoal, hmainload, hskip, htail]
          rw [show loadVal (SJTy.tobj fields) (SJson.jobj kvs) =
            (if kvs.all (fun kv => (fields.map (fun f => f.1)).contains kv.1) then
              (loadVal.goFields fields kvs).map SJVal.vobj
            else none) from rfl]
          rw [if_pos hall, hF2 fields vs kvs hsf hnodup hcf hgf]
          rfl

/-- A found record makes `matchedB` the conjunction of the timestamp and
size checks. -/
theorem matchedB_some (loaded : List (String × FileOnDisk)) (f : LiveFile)
    (found : FileOnDisk) (hf : alistGet loaded f.file_path = some found) :
    matchedB loaded f =
      (decide (found.file_modified = f.tstamp) &&
        decide (found.file_size = f.fsize)) := by
  simp [matchedB, hf]

/-- A missing record never matches. -/
theorem matchedB_none (loaded : List (String × FileOnDisk)) (f : LiveFile)
    (hf : alistGet loaded f.file_path = none) : matchedB loaded f = false := by
  simp [matchedB, hf]

/-- The requested-files list is exactly the unmatched live files in walk
order. -/
theorem scan_pass_requested (loaded : List (String × FileOnDisk)) :
    ∀ live : List LiveFile,
      (scan_pass loaded live).2 = live.filter (fun f => !matchedB loaded f) := by
  intro live
  induction live with
  | nil => rfl
  | cons f rest ih =>
    simp only [scan_pass]
    split
    · rename_i found hfo
      split
      · rename_i hm
        have hmb : matchedB loaded f = true := by
          rw [matchedB_some loaded f found hfo]
          simp [hm.1, hm.2]
        simp [List.filter_cons, hmb, ih]
      · rename_i hm
        have hmb : matchedB loaded f = false := by
          rw [matchedB_some loaded f found hfo]
          rcases Decidable.not_and_iff_or_not.mp hm with h1 | h1 <;> simp [h1]
        simp [List.filter_cons, hmb, ih]
    · rename_i hfo
      have hmb : matchedB loaded f = false := matchedB_none loaded f hfo
      simp [List.filter_cons, hmb, ih]

/-- The scanned-files dict records nothing for a path no live file has. -/
theorem scan_pass_scanned_not_live (loaded : List (String × FileOnDisk)) :
    ∀ (live : List LiveFile) (p : String),
      (∀ f ∈ live, ¬(f.file_path = p)) →
      alistGet (scan_pass loaded live).1 p = none := by
  intro live
  induction live with
  | nil => intro p _; rfl
  | cons f rest ih =>
    intro p hne
    have hf : ¬(f.file_path = p) := hne f (List.mem_cons_self _ _)
    have hrest := ih p (fun g hg => hne g (List.mem_cons_of_mem _ hg))
    simp only [scan_pass]
    split
    · rename_i found hfo
      split
      · simp [alistGet, hf, hrest]
      · simp [alistGet, hf, hrest]
    · exact hrest

/-- The scanned-files dict has an entry for every live file whose path the
loaded map knows. -/
theorem scan_pass_scanned_isSome (loaded : List (String × FileOnDisk)) :
    ∀ (live : List LiveFile) (f : LiveFile), f ∈ live →
      (alistGet loaded f.file_path).isSome = true →
      (alistGet (scan_pass loaded live).1 f.file_path).isSome = true := by
  intro live
  induction live with
  | nil => intro f hf; cases hf
  | cons g rest ih =>
    intro f hf hl
    simp only [scan_pass]
    rcases List.mem_cons.mp hf with rfl | hmem
    · split
      · rename_i found hfo
        split
        · simp [alistGet]
        · simp [alistGet]
      · rename_i hfo
        rw [hfo] at hl
        cases hl
    · split
      · rename_i found hfo
        split
        · by_cases hp : g.file_path = f.file_path
          · simp [alistGet, hp]
          · simp only [alistGet, if_neg hp]
            exact ih f hmem hl
        · by_cases hp : g.file_path = f.file_path
          · simp [alistGet, hp]
          · simp only [alistGet, if_neg hp]
            exact ih f hmem hl
      · exact ih f hmem hl

/-- Hashing tasks do not touch paths outside the requested list. -/
theorem hash_pass_get_notin :
    ∀ (req : List LiveFile) (s u : List (String × FileOnDisk)) (p : String),
      (∀ f ∈ req, ¬(f.file_path = p)) →
      alistGet (hash_pass req s u).1 p = alistGet s p ∧
      alistGet (hash_pass req s u).2 p = alistGet u p := by
  intro req
  induction req with
  | nil => intro s u p _; exact ⟨rfl, rfl⟩
  | cons f rest ih =>
    intro s u p hne
    have hf : ¬(f.file_path = p) := hne f (List.mem_cons_self _ _)
    simp only [hash_pass]
    obtain ⟨ih1, ih2⟩ := ih (alistSet s f.file_path (hashFile f))
      (alistSet u f.file_path (hashFile f)) p
      (fun g hg => hne g (List.mem_cons_of_mem _ hg))
    rw [ih1, ih2, alistGet_alistSet_other _ _ _ _ hf,
      alistGet_alistSet_other _ _ _ _ hf]
    exact ⟨rfl, rfl⟩

/-- Every requested file ends up with its fresh record in both dicts. -/
theorem hash_pass_get_self :
    ∀ (req : List LiveFile) (s u : List (String × FileOnDisk)) (f : LiveFile),
      f ∈ req → req.Pairwise (fun a b => ¬(a.file_path = b.file_path)) →
      alistGet (hash_pass req s u).1 f.file_path = some (hashFile f) ∧
      alistGet (hash_pass req s u).2 f.file_path = some (hashFile f) := by
  intro req
  induction req with
  | nil => intro s u f hf; cases hf
  | cons g rest ih =>
    intro s u f hf hpw
    rw [List.pairwise_cons] at hpw
    obtain ⟨hg, hrest⟩ := hpw
    simp only [hash_pass]
    rcases List.mem_cons.mp hf with rfl | hmem
    · obtain ⟨h1, h2⟩ := hash_pass_get_notin rest
        (alistSet s f.file_path (hashFile f))
        (alistSet u f.file_path (hashFile f)) f.file_path
        (fun x hx hEq => hg x hx hEq.symm)
      rw [h1, h2, alistGet_alistSet_self, alistGet_alistSet_self]
      exact ⟨rfl, rfl⟩
    · exact ih _ _ f hmem hrest

/-- Lookup in a key-filtered association list. -/
theorem alistGet_filter_keyPred {ν : Type} (q : String → Bool) :
    ∀ (l : List (String × ν)) (p : String),
      alistGet (l.filter (fun pr => q pr.1)) p =
        if q p then alistGet l p else none := by
  intro l
  induction l with
  | nil => intro p; cases hq : q p <;> simp [alistGet, hq]
  | cons e rest ih =>
    intro p
    obtain ⟨k, v⟩ := e
    by_cases hk : k = p
    · subst hk
      cases hq : q k with
      | true => simp [List.filter_cons, hq, alistGet]
      | false => simp [List.filter_cons, hq, alistGet, ih]
    · cases hq : q k with
      | true => simp [List.filter_cons, hq, alistGet, hk, ih]
      | false => simp [List.filter_cons, hq, alistGet, hk, ih]

/-- A matched live file's path never appears among the requested files (its
own entry is filtered out as matched; any other entry has a different path
by distinctness). -/
theorem matched_not_in_requested (loaded : List (String × FileOnDisk)) :
    ∀ (live : List LiveFile) (f : LiveFile),
      live.Pairwise (fun a b => ¬(a.file_path = b.file_path)) →
      f ∈ live → matchedB loaded f = true →
      ∀ g ∈ live.filter (fun x => !matchedB loaded x),
        ¬(g.file_path = f.file_path) := by
  intro live
  induction live with
  | nil => intro f _ hf; cases hf
  | cons h rest ih =>
    intro f hpw hf hm g hg
    rw [List.pairwise_cons] at hpw
    obtain ⟨hhead, hrest⟩ := hpw
    rcases List.mem_cons.mp hf with rfl | hfmem
    · rw [List.filter_cons, hm] at hg
      simp only [Bool.not_true] at hg
      have hgmem := List.mem_of_mem_filter hg
      intro hEq
      exact hhead g hgmem hEq.symm
    · rw [List.filter_cons] at hg
      cases hmh : matchedB loaded h with
      | true =>
        rw [hmh] at hg
        simp only [Bool.not_true] at hg
        exact ih f hrest hfmem hm g hg
      | false =>
        rw [hmh] at hg
        simp only [Bool.not_false] at hg
        rcases List.mem_cons.mp hg with rfl | hgmem
        · exact fun hEq => hhead f hfmem hEq
        · exact ih f hrest hfmem hm g hgmem

/-- An association-list hit is a member. -/
theorem alistGet_mem {κ ν : Type} [DecidableEq κ] :
    ∀ (l : List (κ × ν)) (k : κ) (v : ν),
      alistGet l k = some v → (k, v) ∈ l := by
  intro l
  induction l with
  | nil => intro k v h; cases h
  | cons e rest ih =>
    intro k v h
    obtain ⟨k', v'⟩ := e
    by_cases hk : k' = k
    · subst hk
      simp only [alistGet, if_pos rfl] at h
      cases h
      exact List.mem_cons_self _ _
    · simp only [alistGet, if_neg hk] at h
      exact List.mem_cons_of_mem _ (ih k v h)

/-- Invariant of the installer population loop: every entry of the `files`
dict either predates the loop or was recorded with the truncated VFS hash
matching the archive entry. -/
theorem buildAic_files_sound (ignoredF : String → Bool)
    (vfsHash : String → Option Bytes)
    (archive_files : List (String × List ArchiveFileRetriever)) :
    ∀ (desired : List (String × FileInArchive)) (aic0 : ArInstallerDetails)
      (zf0 : List String) (out : ArInstallerDetails × List String),
      buildAic ignoredF vfsHash archive_files desired aic0 zf0 = some out →
      ∀ p ∈ out.1.files, p ∈ aic0.files ∨
        ∃ srch, vfsHash p.1 = some srch ∧
          p.2.file_hash = truncate_file_hash srch := by
  intro desired
  induction desired with
  | nil =>
    intro aic0 zf0 out h p hp
    cases h
    exact Or.inl hp
  | cons d rest ih =>
    intro aic0 zf0 out h p hp
    obtain ⟨f, fia⟩ := d
    simp only [buildAic] at h
    split at h
    · rcases ih _ _ _ h p hp with hmem | hex
      · exact Or.inl hmem
      · exact Or.inr hex
    · split at h
      · split at h
        · split at h
          · cases h
          · rcases ih _ _ _ h p hp with hmem | hex
            · exact Or.inl hmem
            · exact Or.inr hex
        · split at h
          · split at h
            · rcases ih _ _ _ h p hp with hmem | hex
              · exact Or.inl hmem
              · exact Or.inr hex
            · cases h
          · split at h
            · cases h
            · rcases ih _ _ _ h p hp with hmem | hex
              · exact Or.inl hmem
              · exact Or.inr hex
      · split at h
        · cases h
        · rename_i srch hv
          split at h
          · rename_i hhash
            split at h
            · cases h
            · rcases ih _ _ _ h p hp with hmem | hex
              · rcases List.mem_append.mp hmem with hmem0 | hsing
                · exact Or.inl hmem0
                · have hpe : p = (f, fia) := List.mem_singleton.mp hsing
                  subst hpe
                  exact Or.inr ⟨srch, hv, hhash⟩
              · exact Or.inr hex
          · split at h
            · cases h
            · rcases ih _ _ _ h p hp with hmem | hex
              · exact Or.inl hmem
              · exact Or.inr hex

/-- `add_to_dict_of_lists` appends at the given key. -/
theorem add_to_dict_get_self {κ ν : Type} [DecidableEq κ] :
    ∀ (m : List (κ × List ν)) (k : κ) (x : ν),
      alistGet (add_to_dict_of_lists m k x) k =
        some ((alistGet m k).getD [] ++ [x]) := by
  intro m k x
  induction m with
  | nil => simp [add_to_dict_of_lists, alistGet]
  | cons e rest ih =>
    obtain ⟨k', l⟩ := e
    by_cases hk : k' = k
    · subst hk
      simp [add_to_dict_of_lists, alistGet]
    · simp [add_to_dict_of_lists, alistGet, hk, ih]

/-- `add_to_dict_of_lists` leaves other keys alone. -/
theorem add_to_dict_get_other {κ ν : Type} [DecidableEq κ] :
    ∀ (m : List (κ × List ν)) (k k' : κ) (x : ν), ¬(k = k') →
      alistGet (add_to_dict_of_lists m k x) k' = alistGet m k' := by
  intro m k k' x hne
  induction m with
  | nil => simp [add_to_dict_of_lists, alistGet, hne]
  | cons e rest ih =>
    obtain ⟨k0, l⟩ := e
    by_cases hk : k0 = k
    · subst hk
      simp [add_to_dict_of_lists, alistGet, hne]
    · simp only [add_to_dict_of_lists, if_neg hk, alistGet]
      by_cases hk' : k0 = k'
      · simp [hk']
      · simp only [if_neg hk']
        exact ih

/-- Registering the mod's archives leaves unrelated archives alone. -/
theorem fold_add_get_notin (modname : String) :
    ∀ (ifh : List Bytes) (ra : List (Bytes × List String)) (arh : Bytes),
      ¬(arh ∈ ifh) →
      alistGet (ifh.foldl
        (fun ra2 a => add_to_dict_of_lists ra2 a modname) ra) arh =
        alistGet ra arh := by
  intro ifh
  induction ifh with
  | nil => intro ra arh _; rfl
  | cons a rest ih =>
    intro ra arh hnotin
    have ha : ¬(a = arh) := fun hEq => hnotin (hEq ▸ List.mem_cons_self _ _)
    have hrest : ¬(arh ∈ rest) := fun hm => hnotin (List.mem_cons_of_mem _ hm)
    simp only [List.foldl_cons]
    rw [ih _ arh hrest, add_to_dict_get_other _ _ _ _ ha]

/-- After registering the mod's archives, each of them is recorded with this
mod as the most recent requirer. -/
theorem fold_add_get_mem (modname : String) :
    ∀ (ifh : List Bytes) (ra : List (Bytes × List String)) (arh : Bytes),
      arh ∈ ifh →
      ∃ lst, alistGet (ifh.foldl
          (fun ra2 a => add_to_dict_of_lists ra2 a modname) ra) arh = some lst ∧
        lst.getLast? = some modname := by
  intro ifh
  induction ifh with
  | nil => intro ra arh h; cases h
  | cons a rest ih =>
    intro ra arh hmem
    simp only [List.foldl_cons]
    by_cases hrest : arh ∈ rest
    · exact ih _ arh hrest
    · have ha : arh = a := by
        rcases List.mem_cons.mp hmem with h | h
        · exact h
        · exact absurd h hrest
      subst ha
      rw [fold_add_get_notin modname rest _ arh hrest, add_to_dict_get_self]
      exact ⟨_, rfl, List.getLast?_concat _⟩

/-- Association list lookup commutes with a value-only map. -/
theorem alistGet_map_entry {κ ν : Type} [DecidableEq κ] (g : ν → ν) :
    ∀ (l : List (κ × ν)) (k : κ),
      alistGet (l.map (fun kv => (kv.1, g kv.2))) k = (alistGet l k).map g := by
  intro l
  induction l with
  | nil => intro k; rfl
  | cons e rest ih =>
    intro k
    obtain ⟨k0, v⟩ := e
    by_cases hk : k0 = k
    · simp [alistGet, hk]
    · simp only [List.map_cons, alistGet, if_neg hk]
      exact ih k

/-- Under the incremental `required_archives` construction, the code's
"archive whose requirer list ends with this mod" test coincides with
"archive among this mod's installer archives", provided the mod has not been
processed before. -/
theorem findSameMod_eq_find_ifh (ra0 : List (Bytes × List String))
    (modname : String) (ifh : List Bytes)
    (hnotlast : ∀ pr ∈ ra0,
      ¬((pr : Bytes × List String).2.getLast? = some modname))
    (retr : List ArchiveFileRetriever) :
    findSameMod (ifh.foldl
        (fun ra2 a => add_to_dict_of_lists ra2 a modname) ra0) modname retr =
      retr.find? (fun r => decide (r.archiveHash ∈ ifh)) := by
  rw [findSameMod]
  congr 1
  funext r'
  by_cases hin : r'.archiveHash ∈ ifh
  · obtain ⟨lst, hget2, hlast⟩ := fold_add_get_mem modname ifh ra0
      r'.archiveHash hin
    rw [hget2]
    simp [hlast, hin]
  · rw [fold_add_get_notin modname ifh ra0 r'.archiveHash hin]
    cases hra : alistGet ra0 r'.archiveHash with
    | none => simp [hin]
    | some lst =>
      have hne := hnotlast (r'.archiveHash, lst)
        (alistGet_mem ra0 _ lst hra)
      simp [hin, hne]

/-- The no-`break` search keeps the last required-archive retriever. -/
theorem findLastRequired_spec (ra : List (Bytes × List String)) :
    ∀ (retr : List ArchiveFileRetriever) (acc : Option ArchiveFileRetriever)
      (r : ArchiveFileRetriever),
      retr.foldl (fun a x =>
        if (alistGet ra x.archiveHash).isSome then some x else a) acc = some r →
      acc = some r ∨ (r ∈ retr ∧ (alistGet ra r.archiveHash).isSome = true) := by
  intro retr
  induction retr with
  | nil => intro acc r h; exact Or.inl h
  | cons x rest ih =>
    intro acc r h
    simp only [List.foldl_cons] at h
    rcases ih _ r h with hacc | ⟨hmem, hsome⟩
    · by_cases hx : (alistGet ra x.archiveHash).isSome = true
      · rw [if_pos hx] at hacc
        cases hacc
        exact Or.inr ⟨List.mem_cons_self _ _, hx⟩
      · rw [if_neg hx] at hacc
        exact Or.inl hacc
    · exact Or.inr ⟨List.mem_cons_of_mem _ hmem, hsome⟩

/-- The any-mod pass: per-file result lookup. -/
theorem stage2_any_mod_get (ra : List (Bytes × List String)) :
    ∀ (rem out : List (String × List ArchiveFileRetriever))
      (f : String) (retr : List ArchiveFileRetriever),
      stage2_any_mod ra rem = some out →
      alistGet rem f = some retr →
      ∃ retr', alistGet out f = some retr' ∧
        ((1 < retr.length ∧
          ∃ r, findLastRequired ra retr = some r ∧ retr' = [r]) ∨
         (¬(1 < retr.length) ∧ retr' = retr)) := by
  intro rem
  induction rem with
  | nil => intro out f retr _ hget; cases hget
  | cons e rest ih =>
    intro out f retr hrun hget
    obtain ⟨f0, retr0⟩ := e
    simp only [stage2_any_mod, optMap] at hrun
    split at hrun
    · rename_i x1 x2 b bs hentry hrest
      cases hrun
      have hrest' : stage2_any_mod ra rest = some bs := hrest
      split at hentry
      · rename_i hlen
        cases hfl : findLastRequired ra retr0 with
        | none => rw [hfl] at hentry; cases hentry
        | some r0 =>
          rw [hfl] at hentry
          cases hentry
          by_cases hf : f0 = f
          · subst hf
            simp only [alistGet, if_pos rfl] at hget ⊢
            cases hget
            exact ⟨[r0], rfl, Or.inl ⟨hlen, r0, hfl, rfl⟩⟩
          · simp only [alistGet, if_neg hf] at hget ⊢
            exact ih bs f retr hrest' hget
      · rename_i hlen
        cases hentry
        by_cases hf : f0 = f
        · subst hf
          simp only [alistGet, if_pos rfl] at hget ⊢
          cases hget
          exact ⟨retr, rfl, Or.inr ⟨hlen, rfl⟩⟩
        · simp only [alistGet, if_neg hf] at hget ⊢
          exact ih bs f retr hrest' hget
    · cases hrun

/-- Files moved by a tools/patch-style loop are never lost: each stays
unknown or appears among the moved keys. -/
theorem pass_preserves (oracle : String → Option String) :
    ∀ (cands unknown : List String) (moved : List (String × String))
      (f : String),
      f ∈ unknown ∨ f ∈ moved.map (fun t => t.1) →
      f ∈ (cands.foldl
        (fun acc ff =>
          if acc.1.contains ff then
            match oracle ff with
            | some nm => (acc.1.erase ff, acc.2 ++ [(ff, nm)])
            | none => acc
          else acc)
        (unknown, moved)).1 ∨
      f ∈ ((cands.foldl
        (fun acc ff =>
          if acc.1.contains ff then
            match oracle ff with
            | some nm => (acc.1.erase ff, acc.2 ++ [(ff, nm)])
            | none => acc
          else acc)
        (unknown, moved)).2.map (fun t => t.1)) := by
  intro cands
  induction cands with
  | nil => intro unknown moved f h; exact h
  | cons c rest ih =>
    intro unknown moved f h
    simp only [List.foldl_cons]
    by_cases hc : unknown.contains c
    · rw [if_pos hc]
      cases ho : oracle c with
      | none => exact ih unknown moved f h
      | some nm =>
        apply ih
        rcases h with hu | hm
        · by_cases hfc : f = c
          · subst hfc
            right
            simp
          · left
            exact (List.mem_erase_of_ne hfc).mpr hu
        · right
          simp only [List.map_append, List.mem_append]
          exact Or.inl hm
    · rw [if_neg hc]
      exact ih unknown moved f h

/-- Stage-0: a file with no retrievers joins `unknown_files`. -/
theorem stage0_unknown_mem (files : List (String × List FileRetriever))
    (f : String) (h : (f, ([] : List FileRetriever)) ∈ files) :
    f ∈ stage0_unknown files := by
  rw [stage0_unknown]
  exact List.mem_map.mpr ⟨(f, []), List.mem_filter.mpr ⟨h, rfl⟩, rfl⟩

/-- The saved map of a folder-cache run: every live file maps to its fresh
record (matched files keep a loaded record, which the soundness hypothesis
pins to the same content), and every other path is absent. -/
theorem folder_cache_run_spec (loaded : List (String × FileOnDisk))
    (live : List LiveFile)
    (hdist : live.Pairwise (fun a b => ¬(a.file_path = b.file_path)))
    (hpathinv : ∀ pr ∈ loaded, (pr : String × FileOnDisk).2.file_path = pr.1)
    (hsound : ∀ f ∈ live, ∀ r : FileOnDisk,
      alistGet loaded f.file_path = some r →
      r.file_modified = f.tstamp → r.file_size = f.fsize →
      r.file_hash = f.thash) :
    (∀ f ∈ live,
      alistGet (folder_cache_run loaded live) f.file_path = some (hashFile f)) ∧
    (∀ p : String, (∀ f ∈ live, ¬(f.file_path = p)) →
      alistGet (folder_cache_run loaded live) p = none) := by
  have hrun : folder_cache_run loaded live =
      reconcile
        (hash_pass (scan_pass loaded live).2 (scan_pass loaded live).1 loaded).2
        (hash_pass (scan_pass loaded live).2 (scan_pass loaded live).1 loaded).1 :=
    rfl
  have hreq := scan_pass_requested loaded live
  have hreqsub : ∀ g ∈ (scan_pass loaded live).2, g ∈ live := by
    intro g hg
    rw [hreq] at hg
    exact List.mem_of_mem_filter hg
  have hfiltered : ∀ p : String,
      alistGet (folder_cache_run loaded live) p =
        if (alistGet (hash_pass (scan_pass loaded live).2
            (scan_pass loaded live).1 loaded).1 p).isSome then
          alistGet (hash_pass (scan_pass loaded live).2
            (scan_pass loaded live).1 loaded).2 p
        else none := by
    intro p
    rw [hrun, reconcile]
    exact alistGet_filter_keyPred
      (fun x => (alistGet (hash_pass (scan_pass loaded live).2
        (scan_pass loaded live).1 loaded).1 x).isSome) _ p
  constructor
  · intro f hf
    rw [hfiltered]
    cases hmb : matchedB loaded f with
    | true =>
      cases hfo : alistGet loaded f.file_path with
      | none => rw [matchedB_none loaded f hfo] at hmb; cases hmb
      | some found =>
        have hnotreq : ∀ g ∈ (scan_pass loaded live).2,
            ¬(g.file_path = f.file_path) := by
          rw [hreq]
          exact matched_not_in_requested loaded live f hdist hf hmb
        obtain ⟨h1, h2⟩ := hash_pass_get_notin (scan_pass loaded live).2
          (scan_pass loaded live).1 loaded f.file_path hnotreq
        have hscanned : (alistGet (scan_pass loaded live).1 f.file_path).isSome
            = true :=
          scan_pass_scanned_isSome loaded live f hf (by rw [hfo]; rfl)
        rw [h1, if_pos hscanned, h2, hfo]
        rw [matchedB_some loaded f found hfo, Bool.and_eq_true,
          decide_eq_true_eq, decide_eq_true_eq] at hmb
        have hpath : found.file_path = f.file_path :=
          hpathinv (f.file_path, found) (alistGet_mem loaded f.file_path found hfo)
        have hhash : found.file_hash = f.thash :=
          hsound f hf found hfo hmb.1 hmb.2
        cases found with
        | mk fh fm fp fs =>
          dsimp only at hpath hhash hmb
          rw [hashFile, hpath, hhash, hmb.1, hmb.2]
    | false =>
      have hfreq : f ∈ (scan_pass loaded live).2 := by
        rw [hreq]
        exact List.mem_filter.mpr ⟨hf, by rw [hmb]; rfl⟩
      have hpwreq : (scan_pass loaded live).2.Pairwise
          (fun a b => ¬(a.file_path = b.file_path)) := by
        rw [hreq]
        exact hdist.filter _
      obtain ⟨h1, h2⟩ := hash_pass_get_self (scan_pass loaded live).2
        (scan_pass loaded live).1 loaded f hfreq hpwreq
      rw [h1]
      simp only [Option.isSome_some, if_pos]
      exact h2
  · intro p hnp
    rw [hfiltered]
    have hscan0 := scan_pass_scanned_not_live loaded live p hnp
    obtain ⟨h1, _⟩ := hash_pass_get_notin (scan_pass loaded live).2
      (scan_pass loaded live).1 loaded p
      (fun g hg => hnp g (hreqsub g hg))
    rw [h1, hscan0]
    rfl

end Summon

-- MARKER: CLAIM THEOREMS START HERE

namespace Summon

/-- C10: `RootGitData.archived_file_by_hash` truncates its 32-byte query
digest to 9 bytes before the lookup; hence for any two 32-byte digests with
equal first 9 bytes the lookup result is identical and the resolver
enumerates exactly the same set of archive retriever chains (projected to
their chain links: containing archive digest, archive size and
file-in-archive record; the helper additionally stores the full query digest,
which its constructor constrains only up to truncation). -/
theorem c10_truncated_archive_lookup (rgd : RootGitData) (fuel : Nat)
    (h₁ h₂ : Bytes) (hl₁ : h₁.length = 32) (hl₂ : h₂.length = 32)
    (heq : truncate_file_hash h₁ = truncate_file_hash h₂) :
    archived_file_by_hash rgd h₁ = archived_file_by_hash rgd h₂ ∧
    (archived_file_retrievers_by_hash rgd fuel h₁).map retrieverLinks
      = (archived_file_retrievers_by_hash rgd fuel h₂).map retrieverLinks :=
  archived_links_eq_of_trunc_eq rgd fuel h₁ h₂ heq

/-- Witness for C10 at a concrete index: two distinct 32-byte digests sharing
the first 9 bytes resolve to the same chains. -/
theorem c10_truncated_archive_lookup_witness :
    (List.replicate 32 7 : Bytes).length = 32 ∧
    ((List.replicate 9 7 ++ List.replicate 23 8 : Bytes)).length = 32 ∧
    truncate_file_hash (List.replicate 32 7)
      = truncate_file_hash (List.replicate 9 7 ++ List.replicate 23 8) ∧
    (List.replicate 32 7 : Bytes) ≠ (List.replicate 9 7 ++ List.replicate 23 8) ∧
    (archived_file_by_hash
        ⟨[(List.replicate 9 7,
           [(⟨List.replicate 32 3, 100, [⟨List.replicate 9 7, 5, "a.esp"⟩], "x"⟩,
             ⟨List.replicate 9 7, 5, "a.esp"⟩)])]⟩
        (List.replicate 32 7)
      = archived_file_by_hash
        ⟨[(List.replicate 9 7,
           [(⟨List.replicate 32 3, 100, [⟨List.replicate 9 7, 5, "a.esp"⟩], "x"⟩,
             ⟨List.replicate 9 7, 5, "a.esp"⟩)])]⟩
        (List.replicate 9 7 ++ List.replicate 23 8)) ∧
    ((archived_file_retrievers_by_hash
        ⟨[(List.replicate 9 7,
           [(⟨List.replicate 32 3, 100, [⟨List.replicate 9 7, 5, "a.esp"⟩], "x"⟩,
             ⟨List.replicate 9 7, 5, "a.esp"⟩)])]⟩
        3 (List.replicate 32 7)).map retrieverLinks
      = (archived_file_retrievers_by_hash
        ⟨[(List.replicate 9 7,
           [(⟨List.replicate 32 3, 100, [⟨List.replicate 9 7, 5, "a.esp"⟩], "x"⟩,
             ⟨List.replicate 9 7, 5, "a.esp"⟩)])]⟩
        3 (List.replicate 9 7 ++ List.replicate 23 8)).map retrieverLinks) :=
  ⟨by decide, by decide, by decide, by decide,
   (c10_truncated_archive_lookup _ 3 _ _ (by decide) (by decide) (by decide)).1,
   (c10_truncated_archive_lookup _ 3 _ _ (by decide) (by decide) (by decide)).2⟩

/-- C3: evaluation of `_hash_archive` at the nested-archive input the claim
describes.  An outer archive whose scratch tree holds `inner.zip` (itself an
archive containing `data\x.esp`) yields ONE archive record only, and no
record for the inner archive: the source tests
`os.path.split(fpath)[1].lower()` — the basename `"inner.zip"` — for
membership in the extension list `[".zip"]`, so the nested recursion never
fires.  A file literally named `".zip"` does recurse, confirming the test is
on the name, not the extension (`os.path.splitext` was evidently intended,
cf. `archive_plugin_for`). -/
theorem c3_nested_archive_not_recursed :
    (hash_archive [".zip"] "by" 3 (List.replicate 32 4) 10
        [.file "inner.zip" "inner.zip" (List.replicate 32 5) 5
           [.file "data\\x.esp" "x.esp" (List.replicate 32 6) 3 []]]).length = 1 ∧
    (∀ ar ∈ hash_archive [".zip"] "by" 3 (List.replicate 32 4) 10
        [.file "inner.zip" "inner.zip" (List.replicate 32 5) 5
           [.file "data\\x.esp" "x.esp" (List.replicate 32 6) 3 []]],
       ar.archive_hash ≠ List.replicate 32 5) ∧
    ¬ (pyLower "inner.zip" ∈ ([".zip"] : List String)) ∧
    (hash_archive [".zip"] "by" 3 (List.replicate 32 4) 10
        [.file ".zip" ".zip" (List.replicate 32 5) 5
           [.file "data\\x.esp" "x.esp" (List.replicate 32 6) 3 []]]).length = 2 :=
  ⟨by decide, by decide, by decide, by decide⟩

/-- C6 counterexample: two writes to destination `"d"` at EQUAL priority with
EQUAL file hash but different entries (different intra-archive paths).  The
claim says the later-processed entry wins at equal priority; the code keeps
the earlier entry because `_add_to_out` replaces at equal priority only when
`af.file_hash != oldaf.file_hash`. -/
theorem c6_equal_priority_keeps_incumbent :
    alistGet (applyWrites
        [("d", 5, ⟨[1], 3, "a1"⟩), ("d", 5, ⟨[1], 3, "a2"⟩)]) "d"
      = some (5, ⟨[1], 3, "a1"⟩) ∧
    (⟨[1], 3, "a1"⟩ : FileInArchive) ≠ ⟨[1], 3, "a2"⟩ :=
  ⟨by decide, by decide⟩

/-- C6 (amended): for every write sequence and destination, the final mapping
holds the maximal priority seen at that destination, its entry stems from one
of the maximal-priority writes, and — provided the maximal-priority writes
carry pairwise distinct file hashes — it is exactly the LAST maximal-priority
write in processing order.  (An equal-priority write whose hash equals the
incumbent's leaves the incumbent in place, unlike the unconditional
later-wins rule the claim states.) -/
theorem c6_fomod_conflict_resolution (ws : List (String × Int × FileInArchive))
    (dst : String) (p : Int) (af : FileInArchive)
    (h : alistGet (applyWrites ws) dst = some (p, af)) :
    (∀ q ∈ ((ws.filter (fun w => w.1 = dst)).map (fun w => w.2)).map Prod.fst,
        q ≤ p) ∧
    af ∈ (((ws.filter (fun w => w.1 = dst)).map (fun w => w.2)).filter
            (fun x => x.1 = p)).map Prod.snd ∧
    (((((ws.filter (fun w => w.1 = dst)).map (fun w => w.2)).filter
          (fun x => x.1 = p)).map (fun x => x.2.file_hash)).Pairwise (· ≠ ·) →
      (((ws.filter (fun w => w.1 = dst)).map (fun w => w.2)).filter
          (fun x => x.1 = p)).getLast? = some (p, af)) := by
  have hc : cellFold ((ws.filter (fun w => w.1 = dst)).map (fun w => w.2))
      = some (p, af) := by
    rw [cellFold, List.foldl_map]
    rw [applyWrites] at h
    rw [applyWrites_get_cell dst ws []] at h
    exact h
  obtain ⟨hmax, hmem⟩ := cellFold_max_spec _ p af hc
  exact ⟨hmax, hmem, fun hdist => cellFold_last_of_distinct _ p af hc hdist⟩

/-- Witness for C6 (amended) at a concrete write sequence: a low-priority
write, two maximal-priority writes with distinct hashes (the later one wins),
and a write to another destination. -/
theorem c6_fomod_conflict_resolution_witness :
    alistGet (applyWrites
        [("d", 1, ⟨[9], 1, "low"⟩), ("d", 5, ⟨[1], 3, "b"⟩),
         ("d", 5, ⟨[2], 3, "c"⟩), ("e", 9, ⟨[3], 3, "other"⟩)]) "d"
      = some (5, ⟨[2], 3, "c"⟩) ∧
    ((([("d", (1 : Int), (⟨[9], 1, "low"⟩ : FileInArchive)), ("d", 5, ⟨[1], 3, "b"⟩),
        ("d", 5, ⟨[2], 3, "c"⟩), ("e", 9, ⟨[3], 3, "other"⟩)].filter
          (fun w => w.1 = "d")).map (fun w => w.2)).filter
        (fun x => x.1 = 5)).getLast? = some (5, ⟨[2], 3, "c"⟩) :=
  ⟨by decide,
   (c6_fomod_conflict_resolution
      [("d", 1, ⟨[9], 1, "low"⟩), ("d", 5, ⟨[1], 3, "b"⟩),
       ("d", 5, ⟨[2], 3, "c"⟩), ("e", 9, ⟨[3], 3, "other"⟩)]
      "d" 5 ⟨[2], 3, "c"⟩ (by decide)).2.2 (by decide)⟩

/-- C2: dispatch order of `AvailableFiles.file_retrievers_by_hash`.
(1) For the empty-string SHA-256 digest the result is exactly one
`ZeroFileRetriever`, for every cache state (so neither the companion-repo
cache nor the archive index influences it).
(2) Otherwise, if the digest occurs in the companion-repo cache, the result
is the github retrievers — one per cached occurrence — and no archive
retrievers.
(3) Only otherwise (no companion-repo occurrence) is the result the archive
retriever chains. -/
theorem c2_retriever_dispatch (af : AvailableFiles) (fuel : Nat) (h : Bytes) :
    (h = ZEROHASH → file_retrievers_by_hash af fuel h = some [FileRetriever.zero]) ∧
    (∀ ghres occs, h ≠ ZEROHASH →
      github_file_retrievers_by_hash af h = some ghres →
      alistGet af.github_cache_by_hash h = some occs → occs ≠ [] →
      file_retrievers_by_hash af fuel h = some (ghres.map FileRetriever.github) ∧
      ghres.length = occs.length) ∧
    (h ≠ ZEROHASH → github_file_retrievers_by_hash af h = some [] →
      file_retrievers_by_hash af fuel h
        = some ((archived_file_retrievers_by_hash af.root_data fuel h).map
                  FileRetriever.archive)) := by
  refine ⟨?_, ?_, ?_⟩
  · intro hz
    unfold file_retrievers_by_hash
    rw [if_pos hz]
  · intro ghres occs hnz hgh hocc hne
    have hlen : ghres.length = occs.length :=
      github_retrievers_length af h occs ghres hocc hgh
    have hpos : 0 < ghres.length := by
      rw [hlen]
      exact List.length_pos.mpr hne
    constructor
    · unfold file_retrievers_by_hash
      rw [if_neg hnz, hgh]
      simp only [if_pos hpos]
    · exact hlen
  · intro hnz hgh
    unfold file_retrievers_by_hash
    rw [if_neg hnz, hgh]
    simp

/-- Witness for C2: a concrete resolver state exercising all three branches
(zero digest, companion-repo digest, archive digest). -/
theorem c2_retriever_dispatch_witness :
    (file_retrievers_by_hash
        ⟨"g\\", [(List.replicate 32 1, [⟨List.replicate 32 1, 0, "g\\a\\p\\f", 5⟩])],
         [⟨"a", "p"⟩],
         ⟨[(List.replicate 9 2,
            [(⟨List.replicate 32 3, 100, [⟨List.replicate 9 2, 5, "x.esp"⟩], "x"⟩,
              ⟨List.replicate 9 2, 5, "x.esp"⟩)])]⟩⟩
        3 ZEROHASH = some [FileRetriever.zero]) ∧
    (file_retrievers_by_hash
        ⟨"g\\", [(List.replicate 32 1, [⟨List.replicate 32 1, 0, "g\\a\\p\\f", 5⟩])],
         [⟨"a", "p"⟩],
         ⟨[(List.replicate 9 2,
            [(⟨List.replicate 32 3, 100, [⟨List.replicate 9 2, 5, "x.esp"⟩], "x"⟩,
              ⟨List.replicate 9 2, 5, "x.esp"⟩)])]⟩⟩
        3 (List.replicate 32 1)
      = some ([⟨List.replicate 32 1, 5, "a", "p", "f"⟩].map FileRetriever.github)) ∧
    (file_retrievers_by_hash
        ⟨"g\\", [(List.replicate 32 1, [⟨List.replicate 32 1, 0, "g\\a\\p\\f", 5⟩])],
         [⟨"a", "p"⟩],
         ⟨[(List.replicate 9 2,
            [(⟨List.replicate 32 3, 100, [⟨List.replicate 9 2, 5, "x.esp"⟩], "x"⟩,
              ⟨List.replicate 9 2, 5, "x.esp"⟩)])]⟩⟩
        3 (List.replicate 32 2)
      = some ((archived_file_retrievers_by_hash
          ⟨[(List.replicate 9 2,
             [(⟨List.replicate 32 3, 100, [⟨List.replicate 9 2, 5, "x.esp"⟩], "x"⟩,
               ⟨List.replicate 9 2, 5, "x.esp"⟩)])]⟩ 3 (List.replicate 32 2)).map
          FileRetriever.archive)) :=
  ⟨(c2_retriever_dispatch _ 3 ZEROHASH).1 rfl,
   ((c2_retriever_dispatch _ 3 (List.replicate 32 1)).2.1
      [⟨List.replicate 32 1, 5, "a", "p", "f"⟩]
      [⟨List.replicate 32 1, 0, "g\\a\\p\\f", 5⟩]
      (by decide) (by decide) (by decide) (by decide)).1,
   (c2_retriever_dispatch _ 3 (List.replicate 32 2)).2.2 (by decide) (by decide)⟩

/-- C4: every file recorded in a selected installer recipe's `files` dict
was recorded exactly because the (truncated) VFS content hash of the mod
file agrees with the archive entry's truncated hash — `resolve_unique`
populates `aic.files[f] = fia` only under
`fia.file_hash == truncate_file_hash(srcfile.file_hash)`. -/
theorem c4_installer_files_match (ignoredF : String → Bool)
    (vfsHash : String → Option Bytes)
    (archive_files : List (String × List ArchiveFileRetriever))
    (desired : List (String × FileInArchive)) (zf0 : List String)
    (out : ArInstallerDetails × List String)
    (h : buildAic ignoredF vfsHash archive_files desired ⟨[], [], [], []⟩ zf0
      = some out) :
    ∀ p ∈ out.1.files, ∃ srch, vfsHash p.1 = some srch ∧
      p.2.file_hash = truncate_file_hash srch := by
  intro p hp
  rcases buildAic_files_sound ignoredF vfsHash archive_files desired _ _ _
    h p hp with hmem | hex
  · exact absurd hmem (List.not_mem_nil p)
  · exact hex

/-- C4 witness: a one-file installer whose entry matches the VFS hash. -/
theorem c4_installer_files_match_witness :
    ∃ srch, (fun s => if s = "a" then
        some (List.replicate 32 7) else none) "a" = some srch ∧
      (⟨List.replicate 9 7, 5, "a.dat"⟩ : FileInArchive).file_hash =
        truncate_file_hash srch :=
  c4_installer_files_match (fun _ => false)
    (fun s => if s = "a" then some (List.replicate 32 7) else none)
    [("a", [])] [("a", ⟨List.replicate 9 7, 5, "a.dat"⟩)] []
    (⟨[], [], [("a", ⟨List.replicate 9 7, 5, "a.dat"⟩)], []⟩, []) rfl
    ("a", ⟨List.replicate 9 7, 5, "a.dat"⟩) (by decide)

/-- C5: ambiguity reduction.  (1) In the same-mod pass, a still-ambiguous
file is attributed to its FIRST retriever whose archive is among the mod's
own installer archives (the code's `required_archives[arh][-1] == mod.name`
test coincides with membership in the mod's installer archives when the mod
has not been processed before).  (2) If no retriever's archive is an own
installer archive, the same-mod pass leaves the file untouched.  (3) The
any-mod pass then attributes such a file to the LAST retriever whose
archive is required by any mod; the attributed retriever is one of the
file's retrievers and its archive is indeed required. -/
theorem c5_ambiguity_prefers_same_mod (ra0 : List (Bytes × List String))
    (modname : String) (ifh : List Bytes)
    (remaining : List (String × List ArchiveFileRetriever))
    (raF : List (Bytes × List String))
    (hnotlast : ∀ pr ∈ ra0,
      ¬((pr : Bytes × List String).2.getLast? = some modname)) :
    (∀ (f : String) (retr : List ArchiveFileRetriever)
        (r : ArchiveFileRetriever),
      alistGet remaining f = some retr → 1 < retr.length →
      retr.find? (fun x => decide (x.archiveHash ∈ ifh)) = some r →
      alistGet (stage2_same_mod ra0 modname ifh remaining).2 f = some [r]) ∧
    (∀ (f : String) (retr : List ArchiveFileRetriever),
      alistGet remaining f = some retr →
      (∀ x ∈ retr, ¬(x.archiveHash ∈ ifh)) →
      alistGet (stage2_same_mod ra0 modname ifh remaining).2 f = some retr) ∧
    (∀ (rem2 out : List (String × List ArchiveFileRetriever)) (f : String)
        (retr : List ArchiveFileRetriever) (r : ArchiveFileRetriever),
      stage2_any_mod raF rem2 = some out →
      alistGet rem2 f = some retr → 1 < retr.length →
      findLastRequired raF retr = some r →
      alistGet out f = some [r] ∧ r ∈ retr ∧
        (alistGet raF r.archiveHash).isSome = true) := by
  have hmap : ∀ f : String,
      alistGet (stage2_same_mod ra0 modname ifh remaining).2 f =
        (alistGet remaining f).map (fun v =>
          if 1 < v.length then
            match findSameMod (ifh.foldl
                (fun ra2 a => add_to_dict_of_lists ra2 a modname) ra0)
                modname v with
            | some r' => [r']
            | none => v
          else v) :=
    fun f => alistGet_map_entry (fun v =>
      if 1 < v.length then
        match findSameMod (ifh.foldl
            (fun ra2 a => add_to_dict_of_lists ra2 a modname) ra0)
            modname v with
        | some r' => [r']
        | none => v
      else v) remaining f
  refine ⟨?_, ?_, ?_⟩
  · intro f retr r hget hlen hfind
    rw [hmap f, hget]
    show some (if 1 < retr.length then
        match findSameMod (ifh.foldl
            (fun ra2 a => add_to_dict_of_lists ra2 a modname) ra0)
            modname retr with
        | some r' => [r']
        | none => retr
      else retr) = some [r]
    rw [if_pos hlen, findSameMod_eq_find_ifh ra0 modname ifh hnotlast retr,
      hfind]
  · intro f retr hget hnone
    rw [hmap f, hget]
    have hfnone : retr.find? (fun x => decide (x.archiveHash ∈ ifh)) = none :=
      List.find?_eq_none.mpr (fun x hx => by simpa using hnone x hx)
    show some (if 1 < retr.length then
        match findSameMod (ifh.foldl
            (fun ra2 a => add_to_dict_of_lists ra2 a modname) ra0)
            modname retr with
        | some r' => [r']
        | none => retr
      else retr) = some retr
    by_cases hlen : 1 < retr.length
    · rw [if_pos hlen, findSameMod_eq_find_ifh ra0 modname ifh hnotlast retr,
        hfnone]
    · rw [if_neg hlen]
  · intro rem2 out f retr r hrun hget hlen hfl
    obtain ⟨retr', hout, hcase⟩ := stage2_any_mod_get raF rem2 out f retr
      hrun hget
    rcases hcase with ⟨_, r2, hfl2, rfl⟩ | ⟨hnl, _⟩
    · rw [hfl] at hfl2
      cases hfl2
      refine ⟨hout, ?_⟩
      rcases findLastRequired_spec raF retr none r hfl with hacc | ⟨hmem, hsm⟩
      · cases hacc
      · exact ⟨hmem, hsm⟩
    · exact absurd hlen hnl

/-- C5 witness (scenario S4): `A.zip` (archive hash `[1]`) and `B.zip`
(archive hash `[2]`) both supply `data\\foo.dds`; `A` is required by mod
`M`, so the file is attributed to the `A` retriever, not the `B` one. -/
theorem c5_ambiguity_prefers_same_mod_witness :
    alistGet (stage2_same_mod [] "M" [[1]]
        [("data\\foo.dds",
          [⟨[9], 4, [⟨[9], 4, [1], 100, ⟨[9], 4, "data\\foo.dds"⟩⟩]⟩,
           ⟨[9], 4, [⟨[9], 4, [2], 100, ⟨[9], 4, "data\\foo.dds"⟩⟩]⟩])]).2
      "data\\foo.dds"
      = some [⟨[9], 4, [⟨[9], 4, [1], 100, ⟨[9], 4, "data\\foo.dds"⟩⟩]⟩] :=
  (c5_ambiguity_prefers_same_mod [] "M" [[1]]
      [("data\\foo.dds",
        [⟨[9], 4, [⟨[9], 4, [1], 100, ⟨[9], 4, "data\\foo.dds"⟩⟩]⟩,
         ⟨[9], 4, [⟨[9], 4, [2], 100, ⟨[9], 4, "data\\foo.dds"⟩⟩]⟩])]
      [] (by decide)).1
    "data\\foo.dds"
    [⟨[9], 4, [⟨[9], 4, [1], 100, ⟨[9], 4, "data\\foo.dds"⟩⟩]⟩,
     ⟨[9], 4, [⟨[9], 4, [2], 100, ⟨[9], 4, "data\\foo.dds"⟩⟩]⟩]
    ⟨[9], 4, [⟨[9], 4, [1], 100, ⟨[9], 4, "data\\foo.dds"⟩⟩]⟩
    (by decide) (by decide) (by decide)

/-- C1 counterexample: a VFS file for which the resolver returned NO
retriever, but which is modified-since-install relative to a selected
installer and for which a patch plugin produces a patch: the patch loop
removes it from `unknown_files` and records it under `patched`, so the
emitted project has it in `patches` and in neither `unknown_files` nor
`unknown_files_by_tools` — refuting the claim's two-way disjunction. -/
theorem c1_patched_file_not_in_unknown_lists :
    run_guess_mod_files [("f.esp", [])] (fun _ => none) []
        (fun s => if s = "f.esp" then some "kdiff" else none) ["f.esp"]
      = ⟨[], [], ["f.esp"]⟩ := by decide

/-- C1 (amended): for every non-ignored source-VFS file, either the
resolver returned at least one retriever, or the file's intra-mod path
appears in the emitted mod's `unknown_files`, `unknown_files_by_tools`, or
`patches` — no file is silently absent from the manifest. -/
theorem c1_no_vfs_file_silently_lost
    (files : List (String × List FileRetriever))
    (toolFor : String → Option String) (toolCandidates : List String)
    (patchFor : String → Option String) (patchCandidates : List String) :
    ∀ (f : String) (rs : List FileRetriever), (f, rs) ∈ files →
      rs ≠ [] ∨
      f ∈ (run_guess_mod_files files toolFor toolCandidates patchFor
        patchCandidates).unknown_files ∨
      f ∈ (run_guess_mod_files files toolFor toolCandidates patchFor
        patchCandidates).unknown_files_by_tools ∨
      f ∈ (run_guess_mod_files files toolFor toolCandidates patchFor
        patchCandidates).patches := by
  intro f rs hmem
  cases rs with
  | cons r rs' => exact Or.inl (by simp)
  | nil =>
    right
    have h0 : f ∈ stage0_unknown files := stage0_unknown_mem files f hmem
    have h1 : f ∈ (global_tools_pass toolFor toolCandidates
          (stage0_unknown files)).1 ∨
        f ∈ ((global_tools_pass toolFor toolCandidates
          (stage0_unknown files)).2.map (fun t => t.1)) :=
      pass_preserves toolFor toolCandidates (stage0_unknown files) [] f
        (Or.inl h0)
    have hbridge : run_guess_mod_files files toolFor toolCandidates patchFor
        patchCandidates =
        ⟨(patches_pass patchFor patchCandidates
            (global_tools_pass toolFor toolCandidates
              (stage0_unknown files)).1).1,
          (global_tools_pass toolFor toolCandidates
            (stage0_unknown files)).2.map (fun t => t.1),
          (patches_pass patchFor patchCandidates
            (global_tools_pass toolFor toolCandidates
              (stage0_unknown files)).1).2.map (fun t => t.1)⟩ := rfl
    rw [hbridge]
    rcases h1 with hu1 | hbt
    · have h2 : f ∈ (patches_pass patchFor patchCandidates
            (global_tools_pass toolFor toolCandidates
              (stage0_unknown files)).1).1 ∨
          f ∈ ((patches_pass patchFor patchCandidates
            (global_tools_pass toolFor toolCandidates
              (stage0_unknown files)).1).2.map (fun t => t.1)) :=
        pass_preserves patchFor patchCandidates _ [] f (Or.inl hu1)
      rcases h2 with ha | hb
      · exact Or.inl ha
      · exact Or.inr (Or.inr hb)
    · exact Or.inr (Or.inl hbt)

/-- C1 witness: a mod with a resolved file and an unresolved file that a
global tool explains; the amended accounting holds at the unresolved
file. -/
theorem c1_no_vfs_file_silently_lost_witness :
    ([] : List FileRetriever) ≠ [] ∨
    "bad.esp" ∈ (run_guess_mod_files
        [("good.esp", [FileRetriever.zero]), ("bad.esp", [])]
        (fun s => if s = "bad.esp" then some "xTool" else none) ["bad.esp"]
        (fun _ => none) []).unknown_files ∨
    "bad.esp" ∈ (run_guess_mod_files
        [("good.esp", [FileRetriever.zero]), ("bad.esp", [])]
        (fun s => if s = "bad.esp" then some "xTool" else none) ["bad.esp"]
        (fun _ => none) []).unknown_files_by_tools ∨
    "bad.esp" ∈ (run_guess_mod_files
        [("good.esp", [FileRetriever.zero]), ("bad.esp", [])]
        (fun s => if s = "bad.esp" then some "xTool" else none) ["bad.esp"]
        (fun _ => none) []).patches :=
  c1_no_vfs_file_silently_lost
    [("good.esp", [FileRetriever.zero]), ("bad.esp", [])]
    (fun s => if s = "bad.esp" then some "xTool" else none) ["bad.esp"]
    (fun _ => none) [] "bad.esp" [] (by decide)

/-- C8: scheduler safety is violated.  Add task `N` with the pattern
dependency `"p*"` while no matching task exists: `N` becomes Ready.  Then
add task `p1` (no dependencies): the retroactive pending-pattern loop at the
end of `_internal_add_task_if` increments `N.waiting_for_n_deps` and links
`N` as a child of `p1`, but checks no state and removes `N` from no ready
collection.  The result: `N` is Ready with a non-zero waiting count
(refuting "ready exactly when the count reaches zero"), `_schedule_best_tasks`
will happily start `N` while its declared dependency `p1` is not Done
(refuting "invoked only after every declared dependency has completed"), and
completing `p1` trips `mark_as_done_and_handle_children`'s
`assert ch.state == Pending`. -/
theorem c8_pattern_dependency_race :
    ((addTask emptySched "N" ["p*"]).bind (fun s1 => addTask s1 "p1" [])).bind
        (fun s2 => (alistGet s2.nodes "N").map
          (fun n => (n.state, n.waiting_for_n_deps))) = some (.Ready, 1) ∧
    ((addTask emptySched "N" ["p*"]).bind (fun s1 => addTask s1 "p1" [])).bind
        (fun s2 => (alistGet s2.nodes "p1").map (fun n => n.state))
      = some .Ready ∧
    ¬(((addTask emptySched "N" ["p*"]).bind (fun s1 => addTask s1 "p1" [])).bind
        (fun s2 => schedule s2 "N") = none) ∧
    (((addTask emptySched "N" ["p*"]).bind (fun s1 => addTask s1 "p1" [])).bind
        (fun s2 => schedule s2 "p1")).bind (fun s3 => markDone s3 "p1")
      = none := by
  refine ⟨by decide, by decide, by decide, by decide⟩

/-- C9: folder-cache reconciliation.  Under the cache's core assumptions —
live paths are distinct, loaded records are keyed by their own path, and a
loaded record whose stored timestamp and size match the file's current
`lstat` carries the file's current hash — after all scan and hash sub-tasks
complete: every observed (live) file is present in the reconciled map with
its current record, every path present in the loaded map but not observed
is deleted, and the persisted map agrees pointwise with the map a
from-scratch scan (empty loaded state) of the same tree produces — in
particular after an incremental run in which a source file's content,
timestamp or size changed. -/
theorem c9_folder_cache_reconcile (loaded : List (String × FileOnDisk))
    (live : List LiveFile)
    (hdist : live.Pairwise (fun a b => ¬(a.file_path = b.file_path)))
    (hpathinv : ∀ pr ∈ loaded, (pr : String × FileOnDisk).2.file_path = pr.1)
    (hsound : ∀ f ∈ live, ∀ r : FileOnDisk,
      alistGet loaded f.file_path = some r →
      r.file_modified = f.tstamp → r.file_size = f.fsize →
      r.file_hash = f.thash) :
    (∀ f ∈ live,
      alistGet (folder_cache_run loaded live) f.file_path = some (hashFile f)) ∧
    (∀ p : String, (∀ f ∈ live, ¬(f.file_path = p)) →
      alistGet (folder_cache_run loaded live) p = none) ∧
    (∀ p : String, alistGet (folder_cache_run loaded live) p =
      alistGet (folder_cache_run [] live) p) := by
  obtain ⟨hA, hB⟩ := folder_cache_run_spec loaded live hdist hpathinv hsound
  obtain ⟨hA0, hB0⟩ := folder_cache_run_spec [] live hdist
    (fun pr hpr => absurd hpr (List.not_mem_nil _))
    (fun f hf r hr => by cases hr)
  refine ⟨hA, fun p hp => hB p hp, fun p => ?_⟩
  by_cases hp : ∃ f, f ∈ live ∧ f.file_path = p
  · obtain ⟨f, hf, rfl⟩ := hp
    rw [hA f hf, hA0 f hf]
  · push_neg at hp
    rw [hB p (fun f hf hEq => hp f hf hEq), hB0 p (fun f hf hEq => hp f hf hEq)]

/-- C9 witness: a loaded map with files `a` (unchanged), `b` (content and
timestamp changed) and `dead` (deleted on disk); the reconciled map keeps
`a`'s loaded record, re-hashes `b`, drops `dead`, and agrees with a
from-scratch scan at `dead`. -/
theorem c9_folder_cache_reconcile_witness :
    alistGet (folder_cache_run
        [("a", ⟨[1], 10, "a", 3⟩), ("b", ⟨[2], 20, "b", 4⟩),
         ("dead", ⟨[3], 5, "dead", 1⟩)]
        [⟨"a", 10, 3, [1]⟩, ⟨"b", 21, 4, [9]⟩]) "a"
      = some (⟨[1], 10, "a", 3⟩ : FileOnDisk) ∧
    alistGet (folder_cache_run
        [("a", ⟨[1], 10, "a", 3⟩), ("b", ⟨[2], 20, "b", 4⟩),
         ("dead", ⟨[3], 5, "dead", 1⟩)]
        [⟨"a", 10, 3, [1]⟩, ⟨"b", 21, 4, [9]⟩]) "b"
      = some (⟨[9], 21, "b", 4⟩ : FileOnDisk) ∧
    alistGet (folder_cache_run
        [("a", ⟨[1], 10, "a", 3⟩), ("b", ⟨[2], 20, "b", 4⟩),
         ("dead", ⟨[3], 5, "dead", 1⟩)]
        [⟨"a", 10, 3, [1]⟩, ⟨"b", 21, 4, [9]⟩]) "dead" = none ∧
    alistGet (folder_cache_run
        [("a", ⟨[1], 10, "a", 3⟩), ("b", ⟨[2], 20, "b", 4⟩),
         ("dead", ⟨[3], 5, "dead", 1⟩)]
        [⟨"a", 10, 3, [1]⟩, ⟨"b", 21, 4, [9]⟩]) "dead"
      = alistGet (folder_cache_run []
        [⟨"a", 10, 3, [1]⟩, ⟨"b", 21, 4, [9]⟩]) "dead" :=
  have hmain := c9_folder_cache_reconcile
    [("a", ⟨[1], 10, "a", 3⟩), ("b", ⟨[2], 20, "b", 4⟩),
     ("dead", ⟨[3], 5, "dead", 1⟩)]
    [⟨"a", 10, 3, [1]⟩, ⟨"b", 21, 4, [9]⟩]
    (by decide) (by decide)
    (by
      intro f hf r hr h1 h2
      rcases List.mem_cons.mp hf with rfl | hf2
      · cases hr
        rfl
      · rcases List.mem_cons.mp hf2 with rfl | hf3
        · cases hr
          exact absurd h1 (by decide)
        · cases hf3)
  ⟨hmain.1 ⟨"a", 10, 3, [1]⟩ (by decide),
   hmain.1 ⟨"b", 21, 4, [9]⟩ (by decide),
   hmain.2.1 "dead" (by decide),
   hmain.2.2 "dead"⟩

/-- C7 counterexample: the single byte `0x05` is SUMMON_JSON-compliant data
for a bytes field; it serialises to the string document `"BQ"`, but loading
that document fails, because `from_json_hash` re-pads the 2-character string
to `"BQ="` and `b64decode` rejects a single `=` after 2 data characters.
So `load(serialise(I)) ≡ I` does not hold for every compliant value. -/
theorem c7_stable_json_roundtrip_counterexample :
    serialiseVal .tbytes (.vbytes [5]) = some (.jstr "BQ") ∧
    loadVal .tbytes (.jstr "BQ") = none :=
  ⟨rfl, rfl⟩

/-- C7 (amended): for every canonical SUMMON_JSON value — well-typed, with
byte strings whose length is not 1, 2 or 4 mod 9 (satisfied by the persisted
9- and 32-byte digests), sorted-flag lists already in serialised order, dict
keys sorted and pairwise distinct, object field names distinct, and no
single-field wrapper around an empty list — loading the serialised document
restores the value exactly, and consequently the document is a fixed point
of serialise-after-load. -/
theorem c7_stable_json_roundtrip (ty : SJTy) (v : SJVal) (j : SJson)
    (hcanon : isCanonical ty v = true) (hser : serialiseVal ty v = some j) :
    loadVal ty j = some v ∧ (loadVal ty j).bind (serialiseVal ty) = some j := by
  have h := load_serialise_canonical (sizeOf ty) ty (Nat.le_refl _) v j hcanon hser
  refine ⟨h, ?_⟩
  rw [h]
  exact hser

/-- C7 witness: the round-trip theorem applied to `sampleValue` at
`sampleSchema`, whose serialisation exercises field omission, list sorting,
dict key sorting, base64 byte strings and the transparent wrapper. -/
theorem c7_stable_json_roundtrip_witness :
    isCanonical sampleSchema sampleValue = true ∧
    serialiseVal sampleSchema sampleValue = some sampleDoc ∧
    (loadVal sampleSchema sampleDoc = some sampleValue ∧
      (loadVal sampleSchema sampleDoc).bind (serialiseVal sampleSchema) =
        some sampleDoc) :=
  ⟨by decide, rfl,
   c7_stable_json_roundtrip sampleSchema sampleValue sampleDoc (by decide) rfl⟩

end Summon
